import Mathlib

/-!
Verification of the dynamic loose octree core of the `dilay` repository
(`src/lib/src/octree.cpp`).

Scalars are modelled as exact rationals (`ℚ`); the source uses `float`, and
every claim treated here is structural (tree shape, id index, query plumbing),
so exact arithmetic is the faithful shallow embedding.  External collaborators
(the winged mesh, the geometric intersection predicate library) are modelled
as parameters, as the spec declares them out of scope.

Representation notes, forced by moving from C++ pointers to values:
* `Faces::iterator` handles stored in the id map become *paths*
  (a list of child indices from the root) plus lookup-by-face-id inside the
  addressed node's face list; `std::list` iterators are stable, so when the
  root is replaced (`makeParent` prepends the new octant index,
  `shrinkRoot` drops one index per collapsed level) the stored paths are
  re-based accordingly — the C++ pointers need no such adjustment, the data
  they denote is identical.
* the `parent` back-pointer of `OctreeNode::Impl` is not represented: the
  bottom-up `childEmptyNotification` cascade is expressed as the post-pass of
  the recursive descent along the deletion path.
* recursion in `OctreeNode::Impl::insertFace` / `insertIntoChild` can exceed
  the current tree height (it builds fresh levels), so the node-level insert
  takes explicit fuel and returns `none` on exhaustion; the termination claim
  (C9) shows sufficient fuel always exists.
-/

structure Vec3 where
  x : ℚ
  y : ℚ
  z : ℚ
deriving DecidableEq

/-- Triangle primitive collaborator: the octree only reads its center and its
one-dimensional (longest-axis) extent. -/
structure PrimTriangle where
  center : Vec3
  oneDimExtent : ℚ
deriving DecidableEq

/-- A face stored in a node's face list (`faces.emplace_front` stores the
face's id; the edge/index fields play no role in any claim). -/
structure WFace where
  id : Nat
deriving DecidableEq

/-- Container for a face to insert (class `FaceToInsert`). -/
structure FaceToInsert where
  id : Nat
  primitive : PrimTriangle
  savePrimitive : Bool
deriving DecidableEq

def FaceToInsert.center (f : FaceToInsert) : Vec3 := f.primitive.center

def FaceToInsert.oneDimExtent (f : FaceToInsert) : ℚ := f.primitive.oneDimExtent

/-- Octree node (`OctreeNode::Impl`): center, width, depth, stored faces,
cached primitives, children (none or eight). -/
inductive ONode : Type where
  | mk (center : Vec3) (width : ℚ) (depth : Int)
       (faces : List WFace)
       (primitives : List (Nat × PrimTriangle))
       (children : List ONode)

instance : Inhabited ONode := ⟨ONode.mk ⟨0, 0, 0⟩ 0 0 [] [] []⟩

def ONode.center : ONode → Vec3
  | .mk c _ _ _ _ _ => c

def ONode.width : ONode → ℚ
  | .mk _ w _ _ _ _ => w

def ONode.depth : ONode → Int
  | .mk _ _ d _ _ _ => d

def ONode.faces : ONode → List WFace
  | .mk _ _ _ fs _ _ => fs

def ONode.primitives : ONode → List (Nat × PrimTriangle)
  | .mk _ _ _ _ ps _ => ps

def ONode.children : ONode → List ONode
  | .mk _ _ _ _ _ ch => ch

/-- `relativeMinFaceExtent = 0.1f` (static constant of `OctreeNode::Impl`). -/
def relativeMinFaceExtent : ℚ := 1 / 10

/-- `std::numeric_limits<float>::epsilon()` used by `initRoot` (the rational
value of `2⁻²³`, written without `^` so that kernel evaluation reduces). -/
def floatEpsilon : ℚ := 1 / 8388608

/-- `OctreeNode::Impl::isEmpty`. -/
def ONode.isEmpty (n : ONode) : Bool :=
  n.faces.isEmpty && n.children.isEmpty

/-- `OctreeNode::Impl::approxContains (const glm::vec3&)`. -/
def ONode.approxContainsP (n : ONode) (v : Vec3) : Bool :=
  decide (n.center.x - n.width * (1/2) ≤ v.x) && decide (v.x ≤ n.center.x + n.width * (1/2)) &&
  decide (n.center.y - n.width * (1/2) ≤ v.y) && decide (v.y ≤ n.center.y + n.width * (1/2)) &&
  decide (n.center.z - n.width * (1/2) ≤ v.z) && decide (v.z ≤ n.center.z + n.width * (1/2))

/-- `OctreeNode::Impl::approxContains (const FaceToInsert&)`. -/
def ONode.approxContains (n : ONode) (f : FaceToInsert) : Bool :=
  n.approxContainsP f.center && decide (f.oneDimExtent ≤ n.width)

/-- `OctreeNode::Impl::childIndex`. -/
def childIndex (center pos : Vec3) : Nat :=
  (if center.x < pos.x then 4 else 0) +
  (if center.y < pos.y then 2 else 0) +
  (if center.z < pos.z then 1 else 0)

/-- The eight children built by `OctreeNode::Impl::makeChildren`, in the
source's index order `(-,-,-) … (+,+,+)`. -/
def makeChildrenList (c : Vec3) (w : ℚ) (d : Int) : List ONode :=
  let q := w * (1/4)
  let cw := w * (1/2)
  let cd := d + 1
  [ ONode.mk ⟨c.x - q, c.y - q, c.z - q⟩ cw cd [] [] []
  , ONode.mk ⟨c.x - q, c.y - q, c.z + q⟩ cw cd [] [] []
  , ONode.mk ⟨c.x - q, c.y + q, c.z - q⟩ cw cd [] [] []
  , ONode.mk ⟨c.x - q, c.y + q, c.z + q⟩ cw cd [] [] []
  , ONode.mk ⟨c.x + q, c.y - q, c.z - q⟩ cw cd [] [] []
  , ONode.mk ⟨c.x + q, c.y - q, c.z + q⟩ cw cd [] [] []
  , ONode.mk ⟨c.x + q, c.y + q, c.z - q⟩ cw cd [] [] []
  , ONode.mk ⟨c.x + q, c.y + q, c.z + q⟩ cw cd [] [] [] ]

/-- `OctreeNode::Impl::makeChildren` (assumes no children yet, as the source
asserts). -/
def ONode.makeChildren : ONode → ONode
  | .mk c w d fs ps _ => .mk c w d fs ps (makeChildrenList c w d)

def ONode.setChildren : ONode → List ONode → ONode
  | .mk c w d fs ps _, ch => .mk c w d fs ps ch

/-- The local-storage branch of `OctreeNode::Impl::insertFace`:
`faces.emplace_front` plus the optional primitive cache insertion. -/
def ONode.storeFace : ONode → FaceToInsert → ONode
  | .mk c w d fs ps ch, f =>
      .mk c w d (⟨f.id⟩ :: fs)
        (if f.savePrimitive then (f.id, f.primitive) :: ps else ps) ch

mutual

/-- `OctreeNode::Impl::insertIntoChild`, with explicit fuel.  Returns the
updated node and the path (child-index list) to the node that stored the
face. -/
def insertIntoChildN (r : ℚ) : Nat → ONode → FaceToInsert → Option (ONode × List Nat)
  | 0, _, _ => none
  | fuel + 1, n, f =>
      if n.children.isEmpty then
        insertIntoChildN r fuel n.makeChildren f
      else
        let i := childIndex n.center f.center
        match insertFaceN r fuel (n.children.getD i default) f with
        | none => none
        | some (m, p) => some (n.setChildren (n.children.set i m), i :: p)
termination_by structural fuel n f => fuel

/-- `OctreeNode::Impl::insertFace`, with explicit fuel. -/
def insertFaceN (r : ℚ) : Nat → ONode → FaceToInsert → Option (ONode × List Nat)
  | 0, _, _ => none
  | fuel + 1, n, f =>
      if f.oneDimExtent ≤ n.width * r then
        insertIntoChildN r fuel n f
      else
        some (n.storeFace f, [])
termination_by structural fuel n f => fuel

end

/-- Erase the first face with the given id (`faces.erase (faceIterator)`;
face ids are globally unique, so erase-by-id addresses the same element the
C++ iterator does). -/
def faceErase : List WFace → Nat → List WFace
  | [], _ => []
  | fc :: fs, i => if fc.id = i then fs else fc :: faceErase fs i

/-- `IdMap<PrimTriangle>::remove`. -/
def primErase : List (Nat × PrimTriangle) → Nat → List (Nat × PrimTriangle)
  | [], _ => []
  | e :: ps, i => if e.1 = i then ps else e :: primErase ps i

/-- The local part of `OctreeNode::Impl::deleteFace`: remove the cached
primitive and erase the face from the face list. -/
def ONode.removeFace : ONode → Nat → ONode
  | .mk c w d fs ps ch, i => .mk c w d (faceErase fs i) (primErase ps i) ch

/-- `OctreeNode::Impl::childEmptyNotification`: if every child is now empty,
discard all children (the upward propagation of the source is realised by the
caller checking emptiness of the returned node). -/
def ONode.childEmptyNotification : ONode → ONode
  | .mk c w d fs ps ch =>
      if ch.all ONode.isEmpty then .mk c w d fs ps [] else .mk c w d fs ps ch

/-- Deletion of face `i` at the node addressed by the path, followed by the
bottom-up `childEmptyNotification` cascade (the cascade fires at each
ancestor exactly when its updated child became empty, as in the source). -/
def ONode.deleteFaceAt : ONode → List Nat → Nat → ONode
  | n, [], i => n.removeFace i
  | n, j :: p, i =>
      let m := ONode.deleteFaceAt (n.children.getD j default) p i
      let n' := n.setChildren (n.children.set j m)
      if m.isEmpty then n'.childEmptyNotification else n'

mutual

/-- All face ids stored in the subtree, faces-first then children in order. -/
def treeIds : ONode → List Nat
  | .mk _ _ _ fs _ ch => fs.map WFace.id ++ treeIdsL ch

def treeIdsL : List ONode → List Nat
  | [] => []
  | c :: cs => treeIds c ++ treeIdsL cs

end

/-- Node lookup along a path of child indices. -/
def nodeAt : ONode → List Nat → Option ONode
  | n, [] => some n
  | n, j :: p =>
      match n.children[j]? with
      | some c => nodeAt c p
      | none => none

/-- Indices (0‥7) of non-empty children, as scanned by the loop in
`Octree::Impl::shrinkRoot` (the source always iterates exactly 8 slots). -/
def ONode.nonEmptyChildIndices (n : ONode) : List Nat :=
  (List.range 8).filter fun j => (n.children.getD j default).isEmpty = false

mutual

/-- Height of a node (strict upper bound on the number of `shrinkRoot`
collapse steps). -/
def heightO : ONode → Nat
  | .mk _ _ _ _ _ ch => heightL ch + 1

def heightL : List ONode → Nat
  | [] => 0
  | c :: cs => max (heightO c) (heightL cs)

end

/-- One-step body of the `Octree::Impl::shrinkRoot` loop, iterated on fuel
(the source iterates until the single-non-empty-child condition fails; the
iteration count is bounded by the tree height, supplied in `shrinkGo`). -/
def shrinkGoN : Nat → ONode → ONode × Nat
  | 0, n => (n, 0)
  | fuel + 1, n =>
      if n.faces.isEmpty = true ∧ n.children.isEmpty = false then
        match n.nonEmptyChildIndices with
        | [k] =>
            match n.children[k]? with
            | some c =>
                let r := shrinkGoN fuel c
                (r.1, r.2 + 1)
            | none => (n, 0)
        | _ => (n, 0)
      else (n, 0)
termination_by structural fuel n => fuel

/-- The iterative collapse of `Octree::Impl::shrinkRoot`: while the root
stores no face and exactly one child is non-empty, that child becomes the
root.  Returns the final root and the number of collapsed levels (used to
re-base the stored paths). -/
def shrinkGo (n : ONode) : ONode × Nat := shrinkGoN (heightO n) n

/-- `Octree::Impl` state. -/
structure Octree where
  root : Option ONode
  rootPosition : Vec3
  rootWidth : ℚ
  rootWasSetup : Bool
  idMap : List (Nat × List Nat)
  savePrimitives : Bool

/-- `Octree::Impl::Impl (bool)`. -/
def emptyOctree (s : Bool) : Octree :=
  { root := none, rootPosition := ⟨0, 0, 0⟩, rootWidth := 0
  , rootWasSetup := false, idMap := [], savePrimitives := s }

/-- `IdMap<Faces::iterator>::element` / `iterator` lookup. -/
def idLookup : List (Nat × List Nat) → Nat → Option (List Nat)
  | [], _ => none
  | e :: l, i => if e.1 = i then some e.2 else idLookup l i

/-- `IdMap<Faces::iterator>::remove`. -/
def idErase : List (Nat × List Nat) → Nat → List (Nat × List Nat)
  | [], _ => []
  | e :: l, i => if e.1 = i then l else e :: idErase l i

def Octree.hasRoot (t : Octree) : Bool := t.root.isSome

/-- `Octree::Impl::hasFace`. -/
def Octree.hasFace (t : Octree) (i : Nat) : Bool := (idLookup t.idMap i).isSome

/-- `Octree::Impl::numFaces` (size of the id index). -/
def Octree.numFaces (t : Octree) : Nat := t.idMap.length

/-- `Octree::Impl::face`: `nullptr` (here `none`) when the id is not indexed,
otherwise the stored face the index entry addresses. -/
def Octree.face (t : Octree) (i : Nat) : Option WFace :=
  match t.root, idLookup t.idMap i with
  | some rt, some p => (nodeAt rt p).bind fun m => m.faces.find? fun fc => fc.id == i
  | _, _ => none

/-- `Octree::Impl::initRoot` (derives position/width from the face unless a
root was explicitly set up beforehand). -/
def Octree.initRoot (t : Octree) (f : FaceToInsert) : Octree :=
  let pos := if t.rootWasSetup then t.rootPosition else f.center
  let w := if t.rootWasSetup then t.rootWidth else f.oneDimExtent + floatEpsilon
  { t with rootPosition := pos, rootWidth := w
         , root := some (ONode.mk pos w 0 [] [] []) }

/-- `Octree::Impl::makeParent`: replace the root by a double-width parent
whose octant `index` holds the old root; stored paths are re-based by
prepending `index` (the C++ iterators are untouched by this restructuring). -/
def Octree.makeParent (t : Octree) (rt : ONode) (f : FaceToInsert) : Octree :=
  let hw := rt.width * (1/2)
  let px := if rt.center.x < f.center.x then rt.center.x + hw else rt.center.x - hw
  let ix := if rt.center.x < f.center.x then 0 else 4
  let py := if rt.center.y < f.center.y then rt.center.y + hw else rt.center.y - hw
  let iy := if rt.center.y < f.center.y then 0 else 2
  let pz := if rt.center.z < f.center.z then rt.center.z + hw else rt.center.z - hw
  let iz := if rt.center.z < f.center.z then 0 else 1
  let index := ix + iy + iz
  let newRoot0 := (ONode.mk ⟨px, py, pz⟩ (rt.width * 2) (rt.depth - 1) [] [] []).makeChildren
  let newRoot := newRoot0.setChildren (newRoot0.children.set index rt)
  { t with root := some newRoot
         , idMap := t.idMap.map fun e => (e.1, index :: e.2) }

/-- `Octree::Impl::insertFace (const FaceToInsert&)`: create the root if
absent, grow it until it contains the face, then insert and record the
storage location.  Fuel bounds both the growth loop and the descent. -/
def Octree.insertFaceI : Nat → Octree → FaceToInsert → Option Octree
  | 0, _, _ => none
  | fuel + 1, t, f =>
      let t1 := if t.hasRoot then t else t.initRoot f
      match t1.root with
      | none => none
      | some rt =>
          if rt.approxContains f then
            match insertFaceN relativeMinFaceExtent fuel rt f with
            | some (rt', p) => some { t1 with root := some rt', idMap := (f.id, p) :: t1.idMap }
            | none => none
          else
            Octree.insertFaceI fuel (t1.makeParent rt f) f

/-- `Octree::Impl::insertFace (const WingedFace&, const PrimTriangle&)`:
asserts the id is not yet indexed (precondition violation is `none`). -/
def Octree.insertFace (fuel : Nat) (t : Octree) (fid : Nat) (tri : PrimTriangle) : Option Octree :=
  if t.hasFace fid then none
  else t.insertFaceI fuel ⟨fid, tri, t.savePrimitives⟩

/-- `Octree::Impl::shrinkRoot`: collapse the root while it has no local face
and exactly one non-empty child; stored paths drop one leading index per
collapsed level. -/
def Octree.shrinkRoot (t : Octree) : Octree :=
  match t.root with
  | none => t
  | some rt =>
      let r := shrinkGo rt
      { t with root := some r.1
             , idMap := t.idMap.map fun e => (e.1, e.2.drop r.2) }

/-- `Octree::Impl::deleteFace`: asserts the face is indexed, removes it via
its stored location (triggering the pruning cascade), drops the index entry,
then discards an empty root or attempts a shrink. -/
def Octree.deleteFace (t : Octree) (i : Nat) : Option Octree :=
  match t.root, idLookup t.idMap i with
  | some rt, some p =>
      let rt' := rt.deleteFaceAt p i
      let t' := { t with root := some rt', idMap := idErase t.idMap i }
      if rt'.isEmpty then some { t' with root := none }
      else some t'.shrinkRoot
  | _, _ => none

/-- `Octree::Impl::realignFace`: asserts the face is indexed, deletes it and
reinserts it with the new geometry.  (The optional `sameNode` report of the
source is not modelled; no claim refers to it.) -/
def Octree.realignFace (fuel : Nat) (t : Octree) (fid : Nat) (tri : PrimTriangle) : Option Octree :=
  if t.hasFace fid then
    match t.deleteFace fid with
    | some t' => t'.insertFaceI fuel ⟨fid, tri, t.savePrimitives⟩
    | none => none
  else none

/-- `Octree::Impl::setupRoot`: asserts no root exists yet. -/
def Octree.setupRoot (t : Octree) (pos : Vec3) (w : ℚ) : Option Octree :=
  if t.root.isSome then none
  else some { t with rootWasSetup := true, rootPosition := pos, rootWidth := w }

/-- `Octree::Impl::reset`. -/
def Octree.reset (t : Octree) : Octree :=
  { t with idMap := [], root := none, rootWasSetup := false }

mutual

/-- The faces collected by the sphere region query of
`OctreeNode::Impl::intersects (mesh, sphere, iFaces)`, without the output
accumulator: stored faces passing the sphere/triangle test, gated by the
loose-box overlap test, then children in order.  `bt` is the external
sphere-vs-box predicate applied to the loose box (double width), `ft` the
external sphere-vs-face predicate. -/
def sphereMatches (bt : Vec3 → ℚ → Bool) (ft : WFace → Bool) : ONode → List WFace
  | .mk c w _ fs _ ch =>
      if bt c (w * 2) then
        fs.filter ft ++ sphereMatchesL bt ft ch
      else []

def sphereMatchesL (bt : Vec3 → ℚ → Bool) (ft : WFace → Bool) : List ONode → List WFace
  | [] => []
  | c :: cs => sphereMatches bt ft c ++ sphereMatchesL bt ft cs

end

mutual

/-- Accumulator-threading form of the sphere region query, mirroring the
source's `push_back` into the caller-supplied vector. -/
def sphereAcc (bt : Vec3 → ℚ → Bool) (ft : WFace → Bool) : ONode → List WFace → List WFace
  | .mk c w _ fs _ ch, acc =>
      if bt c (w * 2) then
        sphereAccL bt ft ch (acc ++ fs.filter ft)
      else acc

def sphereAccL (bt : Vec3 → ℚ → Bool) (ft : WFace → Bool) : List ONode → List WFace → List WFace
  | [], acc => acc
  | c :: cs, acc => sphereAccL bt ft cs (sphereAcc bt ft c acc)

end

/-- `OctreeNode::Impl::intersects (const WingedMesh&, const PrimSphere&, …)`:
returns `iFaces.empty () == false` together with the final vector. -/
def ONode.intersectsSphere (bt : Vec3 → ℚ → Bool) (ft : WFace → Bool)
    (n : ONode) (acc : List WFace) : Bool × List WFace :=
  let out := sphereAcc bt ft n acc
  (!out.isEmpty, out)

/-- `Octree::Impl::intersects (const WingedMesh&, const PrimSphere&, …)`. -/
def Octree.intersectsSphere (t : Octree) (bt : Vec3 → ℚ → Bool) (ft : WFace → Bool)
    (acc : List WFace) : Bool × List WFace :=
  match t.root with
  | some rt => ONode.intersectsSphere bt ft rt acc
  | none => (false, acc)

mutual

/-- Mesh-aware ray traversal of `OctreeNode::Impl::intersects (mesh, ray,
intersection)`: the external ray/triangle test and the accumulator update
are fused into `upd`, the loose-box ray test is `bt`. -/
def rayMeshAcc {α : Type} (bt : Vec3 → ℚ → Bool) (upd : α → WFace → α) : ONode → α → α
  | .mk c w _ fs _ ch, acc =>
      if bt c (w * 2) then
        rayMeshAccL bt upd ch (fs.foldl upd acc)
      else acc

def rayMeshAccL {α : Type} (bt : Vec3 → ℚ → Bool) (upd : α → WFace → α) : List ONode → α → α
  | [], acc => acc
  | c :: cs, acc => rayMeshAccL bt upd cs (rayMeshAcc bt upd c acc)

end

mutual

/-- Primitive-cache ray traversal of `OctreeNode::Impl::intersects (ray,
intersection)`: iterates the cached primitives instead of the faces. -/
def rayPrimAcc {α : Type} (bt : Vec3 → ℚ → Bool) (upd : α → Nat × PrimTriangle → α) :
    ONode → α → α
  | .mk c w _ _ ps ch, acc =>
      if bt c (w * 2) then
        rayPrimAccL bt upd ch (ps.foldl upd acc)
      else acc

def rayPrimAccL {α : Type} (bt : Vec3 → ℚ → Bool) (upd : α → Nat × PrimTriangle → α) :
    List ONode → α → α
  | [], acc => acc
  | c :: cs, acc => rayPrimAccL bt upd cs (rayPrimAcc bt upd c acc)

end

/-- `Octree::Impl::intersects (mesh, ray, intersection)`: `false` without a
root, otherwise the accumulator's intersection flag `isI` after traversal. -/
def Octree.intersectsRayMesh {α : Type} (t : Octree) (bt : Vec3 → ℚ → Bool)
    (upd : α → WFace → α) (isI : α → Bool) (acc : α) : Bool × α :=
  match t.root with
  | some rt =>
      let out := rayMeshAcc bt upd rt acc
      (isI out, out)
  | none => (false, acc)

/-- `Octree::Impl::intersects (ray, intersection)` (primitive-cache variant). -/
def Octree.intersectsRayPrim {α : Type} (t : Octree) (bt : Vec3 → ℚ → Bool)
    (upd : α → Nat × PrimTriangle → α) (isI : α → Bool) (acc : α) : Bool × α :=
  match t.root with
  | some rt =>
      let out := rayPrimAcc bt upd rt acc
      (isI out, out)
  | none => (false, acc)

/-- Public mutating operations of the tree, for reachability traces. -/
inductive OctOp : Type where
  | insert (fuel : Nat) (fid : Nat) (tri : PrimTriangle)
  | delete (fid : Nat)
  | realign (fuel : Nat) (fid : Nat) (tri : PrimTriangle)
  | setup (pos : Vec3) (w : ℚ)
  | reset

def applyOp (t : Octree) : OctOp → Option Octree
  | .insert fuel fid tri => t.insertFace fuel fid tri
  | .delete fid => t.deleteFace fid
  | .realign fuel fid tri => t.realignFace fuel fid tri
  | .setup pos w => t.setupRoot pos w
  | .reset => some t.reset

def applyOps (t : Octree) : List OctOp → Option Octree
  | [] => some t
  | op :: ops =>
      match applyOp t op with
      | some t' => applyOps t' ops
      | none => none

/-- A tree state is reachable when some operation trace from a freshly
constructed tree produces it. -/
def Reachable (t : Octree) : Prop :=
  ∃ s ops, applyOps (emptyOctree s) ops = some t

mutual

/-- Structural well-formedness of a node: no partial subdivision (zero or
eight children), a subdivided node keeps at least one non-empty child, and
children sit one depth level below their parent. -/
def nodeWFb : ONode → Bool
  | .mk _ _ d _ _ ch =>
      (decide (ch.length = 0) || decide (ch.length = 8))
      && (ch.isEmpty || ch.any fun c => !c.isEmpty)
      && nodeWFbL d ch

def nodeWFbL : Int → List ONode → Bool
  | _, [] => true
  | d, c :: cs => decide (c.depth = d + 1) && nodeWFb c && nodeWFbL d cs

end

/-- The stored location of every indexed face addresses a node that holds a
face with that id. -/
def pathsOKb (rt : ONode) (l : List (Nat × List Nat)) : Bool :=
  l.all fun e =>
    match nodeAt rt e.2 with
    | some m => m.faces.any fun fc => fc.id == e.1
    | none => false

/-- Well-formedness of the whole tree state. -/
def WFb (t : Octree) : Bool :=
  match t.root with
  | none => t.idMap.isEmpty
  | some rt =>
      !rt.isEmpty && nodeWFb rt
      && decide ((treeIds rt).Nodup)
      && decide ((treeIds rt).Perm (t.idMap.map Prod.fst))
      && pathsOKb rt t.idMap

mutual

/-- Every child's width is half its parent's, recursively (hypothesis of the
termination claim, matching `makeChildren`). -/
def widthCoherent : ONode → Bool
  | .mk _ w _ _ _ ch => widthCoherentL w ch

def widthCoherentL : ℚ → List ONode → Bool
  | _, [] => true
  | w, c :: cs => decide (c.width = w * (1/2)) && widthCoherent c && widthCoherentL w cs

end

/-- Net inserted-and-not-deleted ids along an operation trace. -/
def liveStep (l : List Nat) : OctOp → List Nat
  | .insert _ fid _ => fid :: l
  | .delete fid => l.erase fid
  | .realign _ _ _ => l
  | .setup _ _ => l
  | .reset => []

def liveIds (ops : List OctOp) : List Nat :=
  ops.foldl liveStep []

def OctOp.isInsert : OctOp → Bool
  | .insert _ _ _ => true
  | _ => false

def insIds (ops : List OctOp) : List Nat :=
  ops.filterMap fun op =>
    match op with
    | .insert _ fid _ => some fid
    | _ => none

mutual

/-- Depth coherence alone: every child sits one depth level below its
parent.  Unlike `nodeWFb` this holds in all reachable states, including
those where root growth wrapped an empty pre-configured root. -/
def depthOKb : ONode → Bool
  | .mk _ _ d _ _ ch => depthOKbL d ch

def depthOKbL : Int → List ONode → Bool
  | _, [] => true
  | d, c :: cs => decide (c.depth = d + 1) && depthOKb c && depthOKbL d cs

end

def OctOp.isSetup : OctOp → Bool
  | .setup _ _ => true
  | _ => false

/-- Reachability by traces that never call `setupRoot`.  Pre-configuring the
root and then inserting an out-of-bounds face makes the tree grow around an
*empty* root, leaving permanently empty subtrees that pruning never touches;
the stronger shape invariant only survives traces without such setups. -/
def ReachableNS (t : Octree) : Prop :=
  ∃ s ops, (∀ op ∈ ops, op.isSetup = false) ∧ applyOps (emptyOctree s) ops = some t

/-- Core properties of a successful node-level insertion: geometry of the
node survives, the result is non-empty, exactly the new id is added, a face
with the new id sits at the returned path, and every face reachable before
is still reachable at its old path. -/
def InsOkCore (fid : Nat) (n n' : ONode) (p : List Nat) : Prop :=
  n'.center = n.center ∧ n'.width = n.width ∧ n'.depth = n.depth ∧
  n'.isEmpty = false ∧
  (treeIds n').Perm (fid :: treeIds n) ∧
  (∃ m, nodeAt n' p = some m ∧ ∃ fc ∈ m.faces, fc.id = fid) ∧
  (∀ q m, nodeAt n q = some m → ∃ m', nodeAt n' q = some m' ∧
      ∀ j, (∃ fc ∈ m.faces, fc.id = j) → ∃ fc ∈ m'.faces, fc.id = j)

/-- Relaxation of `nodeWFb` that does not require a non-empty child at the
top level (the state of a node right after `makeChildren`). -/
def nodeWFpre (n : ONode) : Prop :=
  (n.children.length = 0 ∨ n.children.length = 8) ∧
  ∀ c ∈ n.children, c.depth = n.depth + 1 ∧ nodeWFb c = true

/-- Core properties of a node-level deletion with pruning cascade: geometry
of the node survives, exactly one occurrence of the deleted id disappears,
every other face reachable before is still reachable at its old path, and
structural well-formedness is preserved. -/
def DelOk (i : Nat) (n n2 : ONode) : Prop :=
  n2.center = n.center ∧ n2.width = n.width ∧ n2.depth = n.depth ∧
  (treeIds n).Perm (i :: treeIds n2) ∧
  (∀ q mq j, j ≠ i → nodeAt n q = some mq → (∃ fc ∈ mq.faces, fc.id = j) →
      ∃ mq', nodeAt n2 q = some mq' ∧ ∃ fc ∈ mq'.faces, fc.id = j) ∧
  (nodeWFb n = true → nodeWFb n2 = true)

theorem ONode.center_mk (c : Vec3) (w : ℚ) (d : Int) (fs : List WFace)
    (ps : List (Nat × PrimTriangle)) (ch : List ONode) :
    (ONode.mk c w d fs ps ch).center = c := rfl

theorem ONode.width_mk (c : Vec3) (w : ℚ) (d : Int) (fs : List WFace)
    (ps : List (Nat × PrimTriangle)) (ch : List ONode) :
    (ONode.mk c w d fs ps ch).width = w := rfl

theorem ONode.depth_mk (c : Vec3) (w : ℚ) (d : Int) (fs : List WFace)
    (ps : List (Nat × PrimTriangle)) (ch : List ONode) :
    (ONode.mk c w d fs ps ch).depth = d := rfl

theorem ONode.faces_mk (c : Vec3) (w : ℚ) (d : Int) (fs : List WFace)
    (ps : List (Nat × PrimTriangle)) (ch : List ONode) :
    (ONode.mk c w d fs ps ch).faces = fs := rfl

theorem ONode.children_mk (c : Vec3) (w : ℚ) (d : Int) (fs : List WFace)
    (ps : List (Nat × PrimTriangle)) (ch : List ONode) :
    (ONode.mk c w d fs ps ch).children = ch := rfl

theorem ONode.isEmpty_iff (n : ONode) :
    n.isEmpty = true ↔ n.faces = [] ∧ n.children = [] := by
  cases n with
  | mk c w d fs ps ch =>
      simp [ONode.isEmpty, ONode.faces, ONode.children, List.isEmpty_iff]

theorem ONode.isEmpty_false_iff (n : ONode) :
    n.isEmpty = false ↔ ¬(n.faces = [] ∧ n.children = []) := by
  rw [← ONode.isEmpty_iff]
  cases n.isEmpty <;> simp

theorem makeChildrenList_length (c : Vec3) (w : ℚ) (d : Int) :
    (makeChildrenList c w d).length = 8 := rfl

theorem mem_makeChildrenList (c : Vec3) (w : ℚ) (d : Int) (m : ONode)
    (h : m ∈ makeChildrenList c w d) :
    m.faces = [] ∧ m.children = [] ∧ m.depth = d + 1 ∧ m.width = w * (1/2) ∧
      m.isEmpty = true ∧ nodeWFb m = true := by
  simp only [makeChildrenList, List.mem_cons, List.not_mem_nil, or_false] at h
  rcases h with rfl | rfl | rfl | rfl | rfl | rfl | rfl | rfl <;>
    exact ⟨rfl, rfl, rfl, rfl, rfl, rfl⟩

theorem treeIds_mk (c : Vec3) (w : ℚ) (d : Int) (fs : List WFace)
    (ps : List (Nat × PrimTriangle)) (ch : List ONode) :
    treeIds (.mk c w d fs ps ch) = fs.map WFace.id ++ treeIdsL ch := by
  simp [treeIds]

theorem treeIds_of_isEmpty (n : ONode) (h : n.isEmpty = true) : treeIds n = [] := by
  cases n with
  | mk c w d fs ps ch =>
      rcases (ONode.isEmpty_iff _).1 h with ⟨h1, h2⟩
      simp only [ONode.faces_mk] at h1
      simp only [ONode.children_mk] at h2
      subst h1; subst h2
      simp [treeIds, treeIdsL]

theorem treeIdsL_nil_of_all_empty (cs : List ONode)
    (h : ∀ c ∈ cs, c.isEmpty = true) : treeIdsL cs = [] := by
  induction cs with
  | nil => simp [treeIdsL]
  | cons c cs ih =>
      simp only [treeIdsL]
      rw [treeIds_of_isEmpty c (h c (by simp)), ih fun x hx => h x (by simp [hx])]
      rfl

theorem treeIdsL_makeChildrenList (c : Vec3) (w : ℚ) (d : Int) :
    treeIdsL (makeChildrenList c w d) = [] := rfl

theorem treeIds_makeChildren (n : ONode) (h : n.children = []) :
    treeIds n.makeChildren = treeIds n := by
  cases n with
  | mk c w d fs ps ch =>
      simp only [ONode.children_mk] at h
      subst h
      simp [ONode.makeChildren, treeIds_mk, treeIdsL_makeChildrenList, treeIdsL]

theorem nodeWFbL_iff (d : Int) (cs : List ONode) :
    nodeWFbL d cs = true ↔ ∀ c ∈ cs, c.depth = d + 1 ∧ nodeWFb c = true := by
  induction cs with
  | nil => simp [nodeWFbL]
  | cons c cs ih =>
      simp only [nodeWFbL, Bool.and_eq_true, decide_eq_true_eq, ih, List.mem_cons]
      constructor
      · rintro ⟨⟨h1, h2⟩, h3⟩ x hx
        rcases hx with rfl | hx
        · exact ⟨h1, h2⟩
        · exact h3 x hx
      · intro h
        exact ⟨⟨(h c (by left; rfl)).1, (h c (by left; rfl)).2⟩,
               fun x hx => h x (Or.inr hx)⟩

theorem nodeWFb_iff (c : Vec3) (w : ℚ) (d : Int) (fs : List WFace)
    (ps : List (Nat × PrimTriangle)) (ch : List ONode) :
    nodeWFb (.mk c w d fs ps ch) = true ↔
      (ch.length = 0 ∨ ch.length = 8) ∧
      (ch = [] ∨ ∃ x ∈ ch, x.isEmpty = false) ∧
      (∀ x ∈ ch, x.depth = d + 1 ∧ nodeWFb x = true) := by
  simp only [nodeWFb, Bool.and_eq_true, Bool.or_eq_true, decide_eq_true_eq,
    List.isEmpty_iff, List.any_eq_true, nodeWFbL_iff, Bool.not_eq_true',
    and_assoc]

theorem nodeWFb_leaf (c : Vec3) (w : ℚ) (d : Int) (fs : List WFace)
    (ps : List (Nat × PrimTriangle)) :
    nodeWFb (.mk c w d fs ps []) = true := by
  simp [nodeWFb_iff]

theorem nodeAt_nil (n : ONode) : nodeAt n [] = some n := rfl

theorem nodeAt_cons (n : ONode) (j : Nat) (p : List Nat) :
    nodeAt n (j :: p) = (n.children[j]?).bind fun cj => nodeAt cj p := by
  simp only [nodeAt]
  cases n.children[j]? <;> rfl

theorem nodeWFb_nodeAt (p : List Nat) (n m : ONode) (hwf : nodeWFb n = true)
    (h : nodeAt n p = some m) : nodeWFb m = true := by
  induction p generalizing n with
  | nil => rw [nodeAt_nil] at h; cases h; exact hwf
  | cons j p ih =>
      rw [nodeAt_cons] at h
      cases hj : n.children[j]? with
      | none => rw [hj] at h; cases h
      | some cj =>
          rw [hj] at h
          have hmem : cj ∈ n.children := List.getElem?_mem hj
          cases n with
          | mk c w d fs ps ch =>
              have := ((nodeWFb_iff c w d fs ps ch).1 hwf).2.2 cj hmem
              exact ih cj this.2 h

theorem depth_nodeAt (p : List Nat) (n m : ONode) (hwf : nodeWFb n = true)
    (h : nodeAt n p = some m) : m.depth = n.depth + p.length := by
  induction p generalizing n with
  | nil => rw [nodeAt_nil] at h; cases h; simp
  | cons j p ih =>
      rw [nodeAt_cons] at h
      cases hj : n.children[j]? with
      | none => rw [hj] at h; cases h
      | some cj =>
          rw [hj] at h
          have hmem : cj ∈ n.children := List.getElem?_mem hj
          cases n with
          | mk c w d fs ps ch =>
              have hc := ((nodeWFb_iff c w d fs ps ch).1 hwf).2.2 cj hmem
              have := ih cj hc.2 h
              rw [this, hc.1]
              simp [ONode.depth_mk]
              ring

theorem nonEmpty_of_face_at (n m : ONode) (q : List Nat) (fc : WFace)
    (h : nodeAt n q = some m) (hfc : fc ∈ m.faces) : n.isEmpty = false := by
  rw [ONode.isEmpty_false_iff]
  rintro ⟨h1, h2⟩
  cases q with
  | nil => rw [nodeAt_nil] at h; cases h; rw [h1] at hfc; cases hfc
  | cons j p =>
      rw [nodeAt_cons, h2] at h
      simp at h

theorem idLookup_isSome_iff (l : List (Nat × List Nat)) (i : Nat) :
    (idLookup l i).isSome = true ↔ i ∈ l.map Prod.fst := by
  induction l with
  | nil => simp [idLookup]
  | cons e l ih =>
      simp only [idLookup, List.map_cons, List.mem_cons]
      by_cases h : e.1 = i
      · simp [h]
      · simp only [if_neg h, ih]
        constructor
        · exact Or.inr
        · rintro (h1 | h1)
          · exact absurd h1.symm h
          · exact h1

theorem idLookup_mem (l : List (Nat × List Nat)) (i : Nat) (p : List Nat)
    (h : idLookup l i = some p) : (i, p) ∈ l := by
  induction l with
  | nil => simp [idLookup] at h
  | cons e l ih =>
      simp only [idLookup] at h
      by_cases he : e.1 = i
      · rw [if_pos he] at h
        cases h
        subst he
        simp
      · rw [if_neg he] at h
        exact List.mem_cons_of_mem _ (ih h)

theorem idErase_keys (l : List (Nat × List Nat)) (i : Nat) :
    (idErase l i).map Prod.fst = (l.map Prod.fst).erase i := by
  induction l with
  | nil => simp [idErase]
  | cons e l ih =>
      simp only [idErase, List.map_cons, List.erase_cons]
      by_cases h : e.1 = i
      · simp [h]
      · rw [if_neg h, if_neg (by simpa using h), List.map_cons, ih]

theorem mem_idErase (l : List (Nat × List Nat)) (i : Nat) (e : Nat × List Nat)
    (h : e ∈ idErase l i) : e ∈ l := by
  induction l with
  | nil => simpa [idErase] using h
  | cons x l ih =>
      simp only [idErase] at h
      by_cases hx : x.1 = i
      · rw [if_pos hx] at h
        exact List.mem_cons_of_mem _ h
      · rw [if_neg hx, List.mem_cons] at h
        rcases h with rfl | h
        · exact List.mem_cons_self _ _
        · exact List.mem_cons_of_mem _ (ih h)

theorem faceErase_perm (fs : List WFace) (i : Nat)
    (h : ∃ fc ∈ fs, fc.id = i) :
    (fs.map WFace.id).Perm (i :: (faceErase fs i).map WFace.id) := by
  induction fs with
  | nil => simp at h
  | cons fc fs ih =>
      simp only [faceErase]
      by_cases hfc : fc.id = i
      · rw [if_pos hfc, List.map_cons, hfc]
      · rw [if_neg hfc]
        rcases h with ⟨x, hx, hxi⟩
        rcases List.mem_cons.1 hx with rfl | hx
        · exact absurd hxi hfc
        · have := ih ⟨x, hx, hxi⟩
          simp only [List.map_cons]
          exact (this.cons fc.id).trans (List.Perm.swap _ _ _)

theorem mem_faceErase_of_ne (fs : List WFace) (i : Nat) (fc : WFace)
    (h : fc ∈ fs) (hne : fc.id ≠ i) : fc ∈ faceErase fs i := by
  induction fs with
  | nil => cases h
  | cons x fs ih =>
      simp only [faceErase]
      by_cases hx : x.id = i
      · rw [if_pos hx]
        rcases List.mem_cons.1 h with rfl | h
        · exact absurd hx hne
        · exact h
      · rw [if_neg hx]
        rcases List.mem_cons.1 h with rfl | h
        · exact List.mem_cons_self _ _
        · exact List.mem_cons_of_mem _ (ih h)

theorem treeIdsL_set_insert (cs : List ONode) (i fid : Nat) (m : ONode)
    (hi : i < cs.length)
    (hperm : (treeIds m).Perm (fid :: treeIds (cs.getD i default))) :
    (treeIdsL (cs.set i m)).Perm (fid :: treeIdsL cs) := by
  induction cs generalizing i with
  | nil => simp at hi
  | cons c cs ih =>
      cases i with
      | zero =>
          simp only [List.set, treeIdsL]
          have hperm2 : (treeIds m).Perm (fid :: treeIds c) := by
            simpa [List.getD_eq_getElem?_getD] using hperm
          exact (hperm2.append_right _).trans (by rw [List.cons_append])
      | succ i =>
          simp only [List.set, treeIdsL]
          have hi' : i < cs.length := by simpa using hi
          have hperm' : (treeIds m).Perm (fid :: treeIds (cs.getD i default)) := by
            simpa [List.getD_eq_getElem?_getD] using hperm
          exact (List.Perm.append_left _ (ih i hi' hperm')).trans List.perm_middle

theorem treeIdsL_set_delete (cs : List ONode) (i fid : Nat) (m : ONode)
    (hi : i < cs.length)
    (hperm : (treeIds (cs.getD i default)).Perm (fid :: treeIds m)) :
    (treeIdsL cs).Perm (fid :: treeIdsL (cs.set i m)) := by
  induction cs generalizing i with
  | nil => simp at hi
  | cons c cs ih =>
      cases i with
      | zero =>
          simp only [List.set, treeIdsL]
          have hperm2 : (treeIds c).Perm (fid :: treeIds m) := by
            simpa [List.getD_eq_getElem?_getD] using hperm
          exact (hperm2.append_right _).trans (by rw [List.cons_append])
      | succ i =>
          simp only [List.set, treeIdsL]
          have hi' : i < cs.length := by simpa using hi
          have hperm' : (treeIds (cs.getD i default)).Perm (fid :: treeIds m) := by
            simpa [List.getD_eq_getElem?_getD] using hperm
          exact (List.Perm.append_left _ (ih i hi' hperm')).trans List.perm_middle

theorem getD_of_getElem? (l : List ONode) (i : Nat) (c : ONode)
    (h : l[i]? = some c) : l.getD i default = c := by
  rw [List.getD_eq_getElem?_getD, h]
  rfl

theorem childIndex_lt (c p : Vec3) : childIndex c p < 8 := by
  unfold childIndex
  split_ifs <;> norm_num

theorem storeFace_parts (n : ONode) (f : FaceToInsert) :
    (n.storeFace f).center = n.center ∧ (n.storeFace f).width = n.width ∧
    (n.storeFace f).depth = n.depth ∧ (n.storeFace f).children = n.children ∧
    (n.storeFace f).faces = ⟨f.id⟩ :: n.faces := by
  cases n
  exact ⟨rfl, rfl, rfl, rfl, rfl⟩

theorem setChildren_parts (n : ONode) (cs : List ONode) :
    (n.setChildren cs).center = n.center ∧ (n.setChildren cs).width = n.width ∧
    (n.setChildren cs).depth = n.depth ∧ (n.setChildren cs).faces = n.faces ∧
    (n.setChildren cs).children = cs := by
  cases n
  exact ⟨rfl, rfl, rfl, rfl, rfl⟩

theorem makeChildren_parts (n : ONode) :
    n.makeChildren.center = n.center ∧ n.makeChildren.width = n.width ∧
    n.makeChildren.depth = n.depth ∧ n.makeChildren.faces = n.faces ∧
    n.makeChildren.children = makeChildrenList n.center n.width n.depth := by
  cases n
  exact ⟨rfl, rfl, rfl, rfl, rfl⟩

theorem treeIds_node (n : ONode) :
    treeIds n = n.faces.map WFace.id ++ treeIdsL n.children := by
  cases n
  rw [treeIds_mk]
  rfl

theorem treeIds_storeFace (n : ONode) (f : FaceToInsert) :
    treeIds (n.storeFace f) = f.id :: treeIds n := by
  cases n with
  | mk c w d fs ps ch =>
      simp [ONode.storeFace, treeIds_mk]

theorem treeIds_setChildren (n : ONode) (cs : List ONode) :
    treeIds (n.setChildren cs) = n.faces.map WFace.id ++ treeIdsL cs := by
  cases n
  rw [ONode.setChildren, treeIds_mk]
  rfl

theorem nodeWFb_storeFace (n : ONode) (f : FaceToInsert) :
    nodeWFb (n.storeFace f) = nodeWFb n := by
  cases n
  rfl

theorem nodeWFb_of_parts (n : ONode)
    (h1 : n.children.length = 0 ∨ n.children.length = 8)
    (h2 : n.children = [] ∨ ∃ x ∈ n.children, x.isEmpty = false)
    (h3 : ∀ x ∈ n.children, x.depth = n.depth + 1 ∧ nodeWFb x = true) :
    nodeWFb n = true := by
  cases n
  rw [nodeWFb_iff]
  exact ⟨h1, h2, h3⟩

theorem nodeWFpre_of_nodeWFb (n : ONode) (h : nodeWFb n = true) : nodeWFpre n := by
  cases n with
  | mk c w d fs ps ch =>
      obtain ⟨h1, h2, h3⟩ := (nodeWFb_iff c w d fs ps ch).1 h
      exact ⟨h1, h3⟩

theorem nodeWFpre_makeChildren (n : ONode) : nodeWFpre n.makeChildren := by
  cases n with
  | mk c w d fs ps ch =>
      constructor
      · right
        exact makeChildrenList_length c w d
      · intro x hx
        obtain ⟨-, -, hd, -, -, hwf⟩ := mem_makeChildrenList c w d x hx
        exact ⟨hd, hwf⟩

theorem insert_both (r : ℚ) (f : FaceToInsert) : ∀ fuel : Nat,
    (∀ n n' p, insertFaceN r fuel n f = some (n', p) → nodeWFb n = true →
        InsOkCore f.id n n' p ∧ nodeWFb n' = true)
  ∧ (∀ n n' p, insertIntoChildN r fuel n f = some (n', p) →
        (p ≠ [] ∧ n'.children.length = (if n.children.isEmpty then 8 else n.children.length)) ∧
        (nodeWFpre n → InsOkCore f.id n n' p ∧ nodeWFb n' = true)) := by
  intro fuel
  induction fuel with
  | zero =>
      constructor
      · intro n n' p h
        simp [insertFaceN] at h
      · intro n n' p h
        simp [insertIntoChildN] at h
  | succ fuel ih =>
      obtain ⟨ihF, ihC⟩ := ih
      constructor
      · -- insertFaceN (fuel+1)
        intro n n' p h hwf
        simp only [insertFaceN] at h
        split at h
        · -- descend into children
          obtain ⟨-, hpre⟩ := ihC n n' p h
          exact hpre (nodeWFpre_of_nodeWFb n hwf)
        · -- store locally
          simp only [Option.some.injEq, Prod.mk.injEq] at h
          obtain ⟨h1, h2⟩ := h
          subst h1
          subst h2
          obtain ⟨hc, hw, hd, hch, hfs⟩ := storeFace_parts n f
          refine ⟨⟨hc, hw, hd, ?_, ?_, ?_, ?_⟩, ?_⟩
          · rw [ONode.isEmpty_false_iff, hfs]
            simp
          · rw [treeIds_storeFace]
          · exact ⟨n.storeFace f, nodeAt_nil _,
              ⟨⟨f.id⟩, by rw [hfs]; exact List.mem_cons_self _ _, rfl⟩⟩
          · intro q m hq
            cases q with
            | nil =>
                rw [nodeAt_nil] at hq
                cases hq
                refine ⟨n.storeFace f, nodeAt_nil _, ?_⟩
                rintro j ⟨fc, hfc, hid⟩
                exact ⟨fc, by rw [hfs]; exact List.mem_cons_of_mem _ hfc, hid⟩
            | cons b q' =>
                rw [nodeAt_cons] at hq
                rw [nodeAt_cons, hch]
                exact ⟨m, hq, fun j hj => hj⟩
          · rw [nodeWFb_storeFace]
            exact hwf
      · -- insertIntoChildN (fuel+1)
        intro n n' p h
        simp only [insertIntoChildN] at h
        split at h
        case isTrue hemp =>
          obtain ⟨⟨hp, hlen⟩, hpre⟩ := ihC n.makeChildren n' p h
          obtain ⟨mc_c, mc_w, mc_d, mc_fs, mc_ch⟩ := makeChildren_parts n
          have hch : n.children = [] := List.isEmpty_iff.1 hemp
          have hmcne : n.makeChildren.children.isEmpty = false := by
            rw [mc_ch]
            rfl
          refine ⟨⟨hp, ?_⟩, ?_⟩
          · rw [hlen, hmcne, if_pos hemp]
            simp [mc_ch, makeChildrenList_length]
          · intro _
            obtain ⟨hcore, hwf⟩ := hpre (nodeWFpre_makeChildren n)
            obtain ⟨cc, cw, cd, cne, cperm, cloc, cpaths⟩ := hcore
            refine ⟨⟨cc.trans mc_c, cw.trans mc_w, cd.trans mc_d, cne, ?_, cloc, ?_⟩, hwf⟩
            · rw [← treeIds_makeChildren n hch]
              exact cperm
            · intro q m hq
              cases q with
              | nil =>
                  rw [nodeAt_nil] at hq
                  cases hq
                  obtain ⟨m', hm', hsub⟩ := cpaths [] n.makeChildren (nodeAt_nil _)
                  refine ⟨m', hm', ?_⟩
                  rintro j ⟨fc, hfc, hid⟩
                  exact hsub j ⟨fc, by rw [mc_fs]; exact hfc, hid⟩
              | cons b q' =>
                  rw [nodeAt_cons, hch] at hq
                  simp at hq
        case isFalse hemp =>
          split at h
          · exact absurd h (by simp)
          case _ m p' heq =>
            simp only [Option.some.injEq, Prod.mk.injEq] at h
            obtain ⟨h1, h2⟩ := h
            subst h1
            subst h2
            obtain ⟨sc, sw, sd, sfs, sch⟩ :=
              setChildren_parts n (n.children.set (childIndex n.center f.center) m)
            refine ⟨⟨by simp, ?_⟩, ?_⟩
            · have hemp2 : n.children.isEmpty = false := by simpa using hemp
              rw [sch, List.length_set, hemp2]
              simp
            · intro hpre
              obtain ⟨hlen08, hkids⟩ := hpre
              have hchne : n.children ≠ [] := by
                intro hnil
                rw [hnil] at hemp
                simp at hemp
              have hlen8 : n.children.length = 8 := by
                rcases hlen08 with h0 | h8
                · exact absurd (List.length_eq_zero.1 h0) hchne
                · exact h8
              have hi : childIndex n.center f.center < n.children.length := by
                rw [hlen8]
                exact childIndex_lt _ _
              have hceq : n.children.getD (childIndex n.center f.center) default =
                  n.children[childIndex n.center f.center] := by
                rw [List.getD_eq_getElem?_getD, List.getElem?_eq_getElem hi]
                rfl
              have hmemci : n.children.getD (childIndex n.center f.center) default ∈
                  n.children := by
                rw [hceq]
                exact List.getElem_mem hi
              obtain ⟨hdep_ci, hwf_ci⟩ := hkids _ hmemci
              obtain ⟨hcoreC, hwfC⟩ := ihF _ m p' heq hwf_ci
              obtain ⟨cc, cw, cd, cne, cperm, cloc, cpaths⟩ := hcoreC
              constructor
              · refine ⟨sc, sw, sd, ?_, ?_, ?_, ?_⟩
                · rw [ONode.isEmpty_false_iff, sch]
                  rintro ⟨-, hnil⟩
                  have : (n.children.set (childIndex n.center f.center) m).length = 0 := by
                    rw [hnil]
                    rfl
                  rw [List.length_set, hlen8] at this
                  exact absurd this (by norm_num)
                · rw [treeIds_setChildren, treeIds_node n]
                  have hperm2 := treeIdsL_set_insert n.children
                    (childIndex n.center f.center) f.id m hi cperm
                  exact ((hperm2.append_left _).trans List.perm_middle)
                · obtain ⟨mm, hmm, hface⟩ := cloc
                  refine ⟨mm, ?_, hface⟩
                  rw [nodeAt_cons, sch, List.getElem?_set_eq hi]
                  exact hmm
                · intro q m0 hq
                  cases q with
                  | nil =>
                      rw [nodeAt_nil] at hq
                      cases hq
                      refine ⟨n.setChildren (n.children.set (childIndex n.center f.center) m),
                        nodeAt_nil _, ?_⟩
                      rintro j ⟨fc, hfc, hid⟩
                      exact ⟨fc, by rw [sfs]; exact hfc, hid⟩
                  | cons b q' =>
                      rw [nodeAt_cons] at hq
                      cases hb : n.children[b]? with
                      | none =>
                          rw [hb] at hq
                          simp at hq
                      | some cb =>
                          rw [hb] at hq
                          simp only [Option.some_bind] at hq
                          by_cases hbi : b = childIndex n.center f.center
                          · subst hbi
                            have hb2 := hb
                            rw [List.getElem?_eq_getElem hi] at hb2
                            have hcb : cb = n.children.getD (childIndex n.center f.center) default := by
                              rw [hceq]
                              exact (Option.some_inj.1 hb2).symm
                            rw [hcb] at hq
                            obtain ⟨m0', hm0', hsub⟩ := cpaths q' m0 hq
                            refine ⟨m0', ?_, hsub⟩
                            rw [nodeAt_cons, sch, List.getElem?_set_eq hi]
                            exact hm0'
                          · refine ⟨m0, ?_, fun j hj => hj⟩
                            rw [nodeAt_cons, sch,
                              List.getElem?_set_ne (fun hx => hbi hx.symm), hb]
                            exact hq
              · refine nodeWFb_of_parts _ ?_ ?_ ?_
                · right
                  rw [sch, List.length_set, hlen8]
                · right
                  refine ⟨m, ?_, cne⟩
                  rw [sch]
                  exact List.getElem?_mem (List.getElem?_set_eq hi)
                · intro x hx
                  rw [sch] at hx
                  rcases List.mem_or_eq_of_mem_set hx with hx' | rfl
                  · obtain ⟨hd1, hd2⟩ := hkids x hx'
                    exact ⟨by rw [sd]; exact hd1, hd2⟩
                  · refine ⟨?_, hwfC⟩
                    rw [sd, cd, hdep_ci]

theorem removeFace_parts (n : ONode) (i : Nat) :
    (n.removeFace i).center = n.center ∧ (n.removeFace i).width = n.width ∧
    (n.removeFace i).depth = n.depth ∧ (n.removeFace i).children = n.children ∧
    (n.removeFace i).faces = faceErase n.faces i := by
  cases n
  exact ⟨rfl, rfl, rfl, rfl, rfl⟩

theorem nodeWFb_removeFace (n : ONode) (i : Nat) :
    nodeWFb (n.removeFace i) = nodeWFb n := by
  cases n
  rfl

theorem cen_of_all_false (n : ONode) (h : n.children.all ONode.isEmpty = false) :
    n.childEmptyNotification = n := by
  cases n with
  | mk c w d fs ps ch =>
      simp only [ONode.children_mk] at h
      simp [ONode.childEmptyNotification, h]

theorem cen_of_all_true (n : ONode) (h : n.children.all ONode.isEmpty = true) :
    n.childEmptyNotification = n.setChildren [] := by
  cases n with
  | mk c w d fs ps ch =>
      simp only [ONode.children_mk] at h
      simp [ONode.childEmptyNotification, ONode.setChildren, h]

theorem nodeWFb_dest (n : ONode) (h : nodeWFb n = true) :
    (n.children.length = 0 ∨ n.children.length = 8) ∧
    (n.children = [] ∨ ∃ x ∈ n.children, x.isEmpty = false) ∧
    (∀ x ∈ n.children, x.depth = n.depth + 1 ∧ nodeWFb x = true) := by
  cases n with
  | mk c w d fs ps ch =>
      exact (nodeWFb_iff c w d fs ps ch).1 h

theorem deleteFaceAt_eq_cons (n : ONode) (a : Nat) (p' : List Nat) (i : Nat) :
    n.deleteFaceAt (a :: p') i =
      (if ((n.children.getD a default).deleteFaceAt p' i).isEmpty then
        (n.setChildren
          (n.children.set a ((n.children.getD a default).deleteFaceAt p' i))).childEmptyNotification
      else
        n.setChildren
          (n.children.set a ((n.children.getD a default).deleteFaceAt p' i))) := by
  rfl

theorem deleteFaceAt_spec (i : Nat) : ∀ (p : List Nat) (n m : ONode),
    nodeAt n p = some m → (∃ fc ∈ m.faces, fc.id = i) →
    DelOk i n (n.deleteFaceAt p i) := by
  intro p
  induction p with
  | nil =>
      intro n m hq hf
      rw [nodeAt_nil] at hq
      cases hq
      rw [show n.deleteFaceAt [] i = n.removeFace i from rfl]
      obtain ⟨rc, rw_, rd, rch, rfs⟩ := removeFace_parts n i
      refine ⟨rc, rw_, rd, ?_, ?_, ?_⟩
      · rw [treeIds_node n, treeIds_node (n.removeFace i), rfs, rch]
        exact ((faceErase_perm n.faces i hf).append_right _).trans
          (by rw [List.cons_append])
      · intro q mq j hj hq2 hfq
        cases q with
        | nil =>
            rw [nodeAt_nil] at hq2
            cases hq2
            obtain ⟨fc, hfc, hid⟩ := hfq
            refine ⟨n.removeFace i, nodeAt_nil _, fc, ?_, hid⟩
            rw [rfs]
            exact mem_faceErase_of_ne n.faces i fc hfc (by rw [hid]; exact hj)
        | cons b q' =>
            rw [nodeAt_cons] at hq2
            rw [nodeAt_cons, rch]
            exact ⟨mq, hq2, hfq⟩
      · intro hwf
        rw [nodeWFb_removeFace]
        exact hwf
  | cons a p' ih =>
      intro n m hq hf
      rw [nodeAt_cons] at hq
      cases hb : n.children[a]? with
      | none =>
          rw [hb] at hq
          simp at hq
      | some ca =>
          rw [hb, Option.some_bind] at hq
          have ha : a < n.children.length := by
            rw [List.getElem?_eq_some] at hb
            exact hb.1
          have hgd : n.children.getD a default = ca := getD_of_getElem? _ _ _ hb
          obtain ⟨ic, iw, idd, iperm, ipaths, iwf⟩ := ih ca m hq hf
          rw [deleteFaceAt_eq_cons, hgd]
          set m1 := ca.deleteFaceAt p' i with hm1
          obtain ⟨sc, sw, sd, sfs, sch⟩ := setChildren_parts n (n.children.set a m1)
          set n1 := n.setChildren (n.children.set a m1) with hn1
          have hperm1 : (treeIds n).Perm (i :: treeIds n1) := by
            rw [treeIds_node n, hn1, treeIds_setChildren]
            have := treeIdsL_set_delete n.children a i m1 ha (by rw [hgd]; exact iperm)
            exact ((this.append_left _).trans List.perm_middle)
          have hpaths1 : ∀ q mq j, j ≠ i → nodeAt n q = some mq →
              (∃ fc ∈ mq.faces, fc.id = j) →
              ∃ mq', nodeAt n1 q = some mq' ∧ ∃ fc ∈ mq'.faces, fc.id = j := by
            intro q mq j hj hq2 hfq
            cases q with
            | nil =>
                rw [nodeAt_nil] at hq2
                cases hq2
                refine ⟨n1, nodeAt_nil _, ?_⟩
                obtain ⟨fc, hfc, hid⟩ := hfq
                exact ⟨fc, by rw [hn1, sfs]; exact hfc, hid⟩
            | cons b q' =>
                rw [nodeAt_cons] at hq2
                cases hb2 : n.children[b]? with
                | none =>
                    rw [hb2] at hq2
                    simp at hq2
                | some cb =>
                    rw [hb2, Option.some_bind] at hq2
                    by_cases hba : b = a
                    · subst hba
                      have hcb : cb = ca := by
                        rw [hb] at hb2
                        exact (Option.some_inj.1 hb2).symm
                      subst hcb
                      obtain ⟨mq', hmq', hface⟩ := ipaths q' mq j hj hq2 hfq
                      refine ⟨mq', ?_, hface⟩
                      rw [nodeAt_cons, hn1, sch, List.getElem?_set_self ha,
                        Option.some_bind]
                      exact hmq'
                    · refine ⟨mq, ?_, hfq⟩
                      rw [nodeAt_cons, hn1, sch,
                        List.getElem?_set_ne (fun hx => hba hx.symm), hb2,
                        Option.some_bind]
                      exact hq2
          split
          case isTrue hm1e =>
            cases hall : (n1.children).all ONode.isEmpty with
            | false =>
                rw [cen_of_all_false n1 hall]
                refine ⟨sc, sw, sd, hperm1, hpaths1, ?_⟩
                intro hwf
                obtain ⟨hlen08, -, hkids⟩ := nodeWFb_dest n hwf
                refine nodeWFb_of_parts _ ?_ ?_ ?_
                · rw [hn1, sch, List.length_set]
                  exact hlen08
                · right
                  have := List.all_eq_false.1 (by rw [hn1, sch] at hall; exact hall)
                  obtain ⟨x, hx, hxe⟩ := this
                  exact ⟨x, by rw [hn1, sch]; exact hx, by simpa using hxe⟩
                · intro x hx
                  rw [hn1, sch] at hx
                  rcases List.mem_or_eq_of_mem_set hx with hx' | rfl
                  · obtain ⟨hd1, hd2⟩ := hkids x hx'
                    exact ⟨by rw [hn1, sd]; exact hd1, hd2⟩
                  · obtain ⟨hd1, hd2⟩ := hkids ca (List.getElem?_mem hb)
                    exact ⟨by rw [hn1, sd, idd]; exact hd1, iwf hd2⟩
            | true =>
                rw [cen_of_all_true n1 hall]
                obtain ⟨zc, zw, zd, zfs, zch⟩ := setChildren_parts n1 []
                have hids1 : treeIds n1 = treeIds (n1.setChildren []) := by
                  rw [treeIds_setChildren n1 [], treeIds_node n1]
                  have hz : treeIdsL n1.children = [] := by
                    refine treeIdsL_nil_of_all_empty _ ?_
                    intro c hc
                    exact List.all_eq_true.1 hall c hc
                  rw [hz]
                  simp [treeIdsL]
                refine ⟨zc.trans sc, zw.trans sw, zd.trans sd, ?_, ?_, ?_⟩
                · rw [← hids1]
                  exact hperm1
                · intro q mq j hj hq2 hfq
                  cases q with
                  | nil =>
                      rw [nodeAt_nil] at hq2
                      cases hq2
                      refine ⟨n1.setChildren [], nodeAt_nil _, ?_⟩
                      obtain ⟨fc, hfc, hid⟩ := hfq
                      exact ⟨fc, by rw [zfs, hn1, sfs]; exact hfc, hid⟩
                  | cons b q' =>
                      obtain ⟨mq', hmq', hface⟩ := hpaths1 (b :: q') mq j hj hq2 hfq
                      rw [nodeAt_cons] at hmq'
                      cases hb3 : n1.children[b]? with
                      | none =>
                          rw [hb3] at hmq'
                          simp at hmq'
                      | some cb' =>
                          rw [hb3, Option.some_bind] at hmq'
                          obtain ⟨fc', hfc', -⟩ := hface
                          have : cb'.isEmpty = false :=
                            nonEmpty_of_face_at cb' mq' q' fc' hmq' hfc'
                          have hcbmem : cb' ∈ n1.children := List.getElem?_mem hb3
                          have := List.all_eq_true.1 hall cb' hcbmem
                          simp_all
                · intro _
                  refine nodeWFb_of_parts _ ?_ ?_ ?_
                  · left
                    rw [zch]
                    rfl
                  · left
                    rw [zch]
                  · intro x hx
                    rw [zch] at hx
                    cases hx
          case isFalse hm1e =>
            refine ⟨sc, sw, sd, hperm1, hpaths1, ?_⟩
            intro hwf
            obtain ⟨hlen08, -, hkids⟩ := nodeWFb_dest n hwf
            refine nodeWFb_of_parts _ ?_ ?_ ?_
            · rw [hn1, sch, List.length_set]
              exact hlen08
            · right
              refine ⟨m1, ?_, by simpa using hm1e⟩
              rw [hn1, sch]
              exact List.getElem?_mem (List.getElem?_set_self ha)
            · intro x hx
              rw [hn1, sch] at hx
              rcases List.mem_or_eq_of_mem_set hx with hx' | rfl
              · obtain ⟨hd1, hd2⟩ := hkids x hx'
                exact ⟨by rw [hn1, sd]; exact hd1, hd2⟩
              · obtain ⟨hd1, hd2⟩ := hkids ca (List.getElem?_mem hb)
                exact ⟨by rw [hn1, sd, idd]; exact hd1, iwf hd2⟩

theorem mem_nonEmptyChildIndices (n : ONode) (j : Nat) :
    j ∈ n.nonEmptyChildIndices ↔ j < 8 ∧ (n.children.getD j default).isEmpty = false := by
  simp [ONode.nonEmptyChildIndices, List.mem_filter, List.mem_range]

theorem getElem?_of_getD_nonEmpty (n : ONode) (k : Nat)
    (h : (n.children.getD k default).isEmpty = false) :
    n.children[k]? = some (n.children.getD k default) := by
  by_cases hk : k < n.children.length
  · rw [List.getD_eq_getElem?_getD, List.getElem?_eq_getElem hk]
    rfl
  · exfalso
    rw [List.getD_eq_getElem?_getD, List.getElem?_eq_none (le_of_not_lt hk)] at h
    simp at h
    exact absurd h (by intro hx; cases hx)

theorem treeIdsL_single (cs : List ONode) : ∀ (k : Nat), k < cs.length →
    (∀ j, j < cs.length → j ≠ k → (cs.getD j default).isEmpty = true) →
    treeIdsL cs = treeIds (cs.getD k default) := by
  induction cs with
  | nil =>
      intro k hk
      simp at hk
  | cons c cs ih =>
      intro k hk hj
      cases k with
      | zero =>
          have hz : treeIdsL cs = [] := by
            refine treeIdsL_nil_of_all_empty _ ?_
            intro x hx
            obtain ⟨jx, hjx, hjeq⟩ := List.getElem_of_mem hx
            have := hj (jx + 1) (by simpa using hjx) (by simp)
            rw [List.getD_eq_getElem?_getD] at this
            simp only [List.getElem?_cons_succ] at this
            rw [List.getElem?_eq_getElem hjx, hjeq] at this
            exact this
          simp only [treeIdsL, hz, List.append_nil]
          rw [List.getD_eq_getElem?_getD]
          simp
      | succ k =>
          have hc : c.isEmpty = true := by
            have := hj 0 (by simp) (by simp)
            rw [List.getD_eq_getElem?_getD] at this
            simpa using this
          have hk' : k < cs.length := by simpa using hk
          have hrec := ih k hk' fun j hjl hjk => by
            have := hj (j + 1) (by simpa using hjl) (by simpa using hjk)
            rw [List.getD_eq_getElem?_getD] at this
            simp only [List.getElem?_cons_succ] at this
            rw [← List.getD_eq_getElem?_getD] at this
            exact this
          simp only [treeIdsL, treeIds_of_isEmpty c hc, List.nil_append, hrec]
          rw [List.getD_eq_getElem?_getD, List.getD_eq_getElem?_getD]
          simp

theorem heightO_pos (n : ONode) : 0 < heightO n := by
  cases n
  simp [heightO]

theorem heightL_mem (cs : List ONode) (c : ONode) (hc : c ∈ cs) :
    heightO c ≤ heightL cs := by
  induction cs with
  | nil => cases hc
  | cons x cs ih =>
      simp only [heightL]
      rcases List.mem_cons.1 hc with rfl | hc2
      · exact le_max_left _ _
      · exact le_trans (ih hc2) (le_max_right _ _)

theorem heightO_child_lt (n c : ONode) (hc : c ∈ n.children) :
    heightO c < heightO n := by
  cases n with
  | mk c0 w d fs ps ch =>
      simp only [heightO]
      simp only [ONode.children_mk] at hc
      exact Nat.lt_succ_of_le (heightL_mem ch c hc)

theorem shrinkGoN_spec : ∀ (fuel : Nat) (n : ONode), heightO n ≤ fuel →
    nodeWFb n = true → n.isEmpty = false →
    nodeWFb (shrinkGoN fuel n).1 = true ∧ (shrinkGoN fuel n).1.isEmpty = false ∧
    treeIds (shrinkGoN fuel n).1 = treeIds n ∧
    (∀ q mq j, nodeAt n q = some mq → (∃ fc ∈ mq.faces, fc.id = j) →
        ∃ mq', nodeAt (shrinkGoN fuel n).1 (q.drop (shrinkGoN fuel n).2) = some mq' ∧
          ∃ fc ∈ mq'.faces, fc.id = j) ∧
    ((shrinkGoN fuel n).1.faces ≠ [] ∨ 2 ≤ (shrinkGoN fuel n).1.nonEmptyChildIndices.length) := by
  intro fuel
  induction fuel with
  | zero =>
      intro n hh
      exact absurd hh (by have := heightO_pos n; omega)
  | succ fuel ih =>
      intro n hh hwf hne
      rw [show shrinkGoN (fuel + 1) n = (if n.faces.isEmpty = true ∧ n.children.isEmpty = false then
            match n.nonEmptyChildIndices with
            | [k] =>
                match n.children[k]? with
                | some c => ((shrinkGoN fuel c).1, (shrinkGoN fuel c).2 + 1)
                | none => (n, 0)
            | _ => (n, 0)
          else (n, 0)) from rfl]
      split
      case isTrue hcond =>
        obtain ⟨hfe, hche⟩ := hcond
        split
        case _ k hx =>
          have hkmem : k ∈ n.nonEmptyChildIndices := by
            rw [hx]
            exact List.mem_cons_self _ _
          obtain ⟨hk8, hkne⟩ := (mem_nonEmptyChildIndices n k).1 hkmem
          have hsome := getElem?_of_getD_nonEmpty n k hkne
          split
          case _ c hc =>
            have hceq : c = n.children.getD k default := by
              rw [hsome] at hc
              exact (Option.some_inj.1 hc).symm
            have hcmem : c ∈ n.children := List.getElem?_mem hc
            obtain ⟨hlen08, -, hkids⟩ := nodeWFb_dest n hwf
            have hchn : n.children ≠ [] := by
              intro hnil
              rw [hnil] at hche
              simp at hche
            have hlen8 : n.children.length = 8 := by
              rcases hlen08 with h0 | h8
              · exact absurd (List.length_eq_zero.1 h0) hchn
              · exact h8
            obtain ⟨-, hwfc⟩ := hkids c hcmem
            have hnec : c.isEmpty = false := by
              rw [hceq]
              exact hkne
            obtain ⟨r1, r2, r3, r4, r5⟩ := ih c (by have := heightO_child_lt n c hcmem; omega) hwfc hnec
            refine ⟨r1, r2, ?_, ?_, r5⟩
            · rw [r3, treeIds_node n, List.isEmpty_iff.1 hfe]
              have hsingle : treeIdsL n.children = treeIds (n.children.getD k default) := by
                refine treeIdsL_single n.children k (by rw [hlen8]; exact hk8) ?_
                intro j hjl hjk
                by_contra hjne
                have hjne' : (n.children.getD j default).isEmpty = false := by
                  cases hje : (n.children.getD j default).isEmpty
                  · rfl
                  · exact absurd hje hjne
                have : j ∈ n.nonEmptyChildIndices :=
                  (mem_nonEmptyChildIndices n j).2 ⟨by rw [← hlen8]; exact hjl, hjne'⟩
                rw [hx] at this
                simp at this
                exact hjk this
              rw [hsingle, ← hceq]
              rfl
            · intro q mq j hq hfq
              cases q with
              | nil =>
                  rw [nodeAt_nil] at hq
                  cases hq
                  obtain ⟨fc, hfc, -⟩ := hfq
                  rw [List.isEmpty_iff.1 hfe] at hfc
                  cases hfc
              | cons b q' =>
                  rw [nodeAt_cons] at hq
                  cases hb : n.children[b]? with
                  | none =>
                      rw [hb] at hq
                      simp at hq
                  | some cb =>
                      rw [hb, Option.some_bind] at hq
                      obtain ⟨fc, hfc, hfcid⟩ := hfq
                      have hcbne : cb.isEmpty = false :=
                        nonEmpty_of_face_at cb mq q' fc hq hfc
                      have hblen : b < n.children.length := by
                        rw [List.getElem?_eq_some] at hb
                        exact hb.1
                      have hbgd : n.children.getD b default = cb := getD_of_getElem? _ _ _ hb
                      have hbmem : b ∈ n.nonEmptyChildIndices :=
                        (mem_nonEmptyChildIndices n b).2
                          ⟨by rw [← hlen8]; exact hblen, by rw [hbgd]; exact hcbne⟩
                      have hbk : b = k := by
                        rw [hx] at hbmem
                        simpa using hbmem
                      subst hbk
                      have hcbc : cb = c := by
                        rw [hsome] at hb
                        exact ((Option.some_inj.1 hb).symm).trans hceq.symm
                      subst hcbc
                      simp only [List.drop_succ_cons]
                      exact r4 q' mq j hq ⟨fc, hfc, hfcid⟩
          case _ hc =>
            exfalso
            rw [hsome] at hc
            cases hc
        case _ hne1 =>
          refine ⟨hwf, hne, rfl, ?_, ?_⟩
          · intro q mq j hq hfq
            exact ⟨mq, by simpa using hq, hfq⟩
          · right
            obtain ⟨hlen08, hex, -⟩ := nodeWFb_dest n hwf
            have hchn : n.children ≠ [] := by
              intro hnil
              rw [hnil] at hche
              simp at hche
            have hlen8 : n.children.length = 8 := by
              rcases hlen08 with h0 | h8
              · exact absurd (List.length_eq_zero.1 h0) hchn
              · exact h8
            rcases hex with hnil | ⟨x, hxmem, hxne⟩
            · exact absurd hnil hchn
            · obtain ⟨jx, hjx, hjeq⟩ := List.getElem_of_mem hxmem
              have hjmem : jx ∈ n.nonEmptyChildIndices := by
                refine (mem_nonEmptyChildIndices n jx).2 ⟨by rw [← hlen8]; exact hjx, ?_⟩
                rw [List.getD_eq_getElem?_getD, List.getElem?_eq_getElem hjx]
                simpa [hjeq] using hxne
              rcases hidx : n.nonEmptyChildIndices with _ | ⟨k1, _ | ⟨k2, ks⟩⟩
              · rw [hidx] at hjmem
                cases hjmem
              · exact absurd hidx (hne1 k1)
              · simp
      case isFalse hcond =>
        rw [Classical.not_and_iff_or_not_not] at hcond
        refine ⟨hwf, hne, rfl, ?_, ?_⟩
        · intro q mq j hq hfq
          exact ⟨mq, by simpa using hq, hfq⟩
        · left
          rcases hcond with hfne | hchne
          · intro hfnil
            rw [hfnil] at hfne
            simp at hfne
          · have hch : n.children = [] := by
              cases hce : n.children.isEmpty
              · exact absurd hce hchne
              · exact List.isEmpty_iff.1 hce
            intro hfnil
            rw [ONode.isEmpty_false_iff] at hne
            exact hne ⟨hfnil, hch⟩

theorem shrinkGo_spec (n : ONode) (hwf : nodeWFb n = true) (hne : n.isEmpty = false) :
    nodeWFb (shrinkGo n).1 = true ∧ (shrinkGo n).1.isEmpty = false ∧
    treeIds (shrinkGo n).1 = treeIds n ∧
    (∀ q mq j, nodeAt n q = some mq → (∃ fc ∈ mq.faces, fc.id = j) →
        ∃ mq', nodeAt (shrinkGo n).1 (q.drop (shrinkGo n).2) = some mq' ∧
          ∃ fc ∈ mq'.faces, fc.id = j) ∧
    ((shrinkGo n).1.faces ≠ [] ∨ 2 ≤ (shrinkGo n).1.nonEmptyChildIndices.length) :=
  shrinkGoN_spec (heightO n) n le_rfl hwf hne



theorem depthOKbL_iff (d : Int) (cs : List ONode) :
    depthOKbL d cs = true ↔ ∀ c ∈ cs, c.depth = d + 1 ∧ depthOKb c = true := by
  induction cs with
  | nil => simp [depthOKbL]
  | cons c cs ih =>
      simp only [depthOKbL, Bool.and_eq_true, decide_eq_true_eq, ih, List.mem_cons]
      constructor
      · rintro ⟨⟨h1, h2⟩, h3⟩ x hx
        rcases hx with rfl | hx
        · exact ⟨h1, h2⟩
        · exact h3 x hx
      · intro h
        exact ⟨⟨(h c (by left; rfl)).1, (h c (by left; rfl)).2⟩,
               fun x hx => h x (Or.inr hx)⟩

theorem depthOKb_dest (n : ONode) (h : depthOKb n = true) :
    ∀ c ∈ n.children, c.depth = n.depth + 1 ∧ depthOKb c = true := by
  cases n with
  | mk c w d fs ps ch =>
      exact (depthOKbL_iff d ch).1 h

theorem depthOKb_of_parts (n : ONode)
    (h : ∀ c ∈ n.children, c.depth = n.depth + 1 ∧ depthOKb c = true) :
    depthOKb n = true := by
  cases n with
  | mk c w d fs ps ch =>
      exact (depthOKbL_iff d ch).2 h

theorem depthOKb_of_children_nil (n : ONode) (h : n.children = []) :
    depthOKb n = true := by
  refine depthOKb_of_parts n ?_
  rw [h]
  intro c hc
  cases hc

theorem depthOKb_nodeAt (p : List Nat) (n m : ONode) (h : depthOKb n = true)
    (hq : nodeAt n p = some m) : depthOKb m = true ∧ m.depth = n.depth + p.length := by
  induction p generalizing n with
  | nil =>
      rw [nodeAt_nil] at hq
      cases hq
      exact ⟨h, by simp⟩
  | cons j p ih =>
      rw [nodeAt_cons] at hq
      cases hj : n.children[j]? with
      | none =>
          rw [hj] at hq
          simp at hq
      | some cj =>
          rw [hj, Option.some_bind] at hq
          obtain ⟨hd1, hd2⟩ := depthOKb_dest n h cj (List.getElem?_mem hj)
          obtain ⟨r1, r2⟩ := ih cj hd2 hq
          refine ⟨r1, ?_⟩
          rw [r2, hd1]
          simp
          ring

theorem depthOKb_storeFace (n : ONode) (f : FaceToInsert) :
    depthOKb (n.storeFace f) = depthOKb n := by
  cases n
  rfl

theorem depthOKb_removeFace (n : ONode) (i : Nat) :
    depthOKb (n.removeFace i) = depthOKb n := by
  cases n
  rfl

theorem depthOKb_makeChildren (n : ONode) : depthOKb n.makeChildren = true := by
  obtain ⟨mc_c, mc_w, mc_d, mc_fs, mc_ch⟩ := makeChildren_parts n
  refine depthOKb_of_parts _ ?_
  rw [mc_ch]
  intro c hc
  obtain ⟨-, hcnil, hcd, -, -, -⟩ := mem_makeChildrenList _ _ _ c hc
  exact ⟨by rw [mc_d]; exact hcd, depthOKb_of_children_nil c hcnil⟩

theorem setChildren_self (n : ONode) : n.setChildren n.children = n := by
  cases n
  rfl

theorem depthOKb_set (n m : ONode) (i : Nat) (hi : i < n.children.length)
    (hn : depthOKb n = true) (hm : depthOKb m = true)
    (hd : m.depth = n.depth + 1) :
    depthOKb (n.setChildren (n.children.set i m)) = true := by
  obtain ⟨sc, sw, sd, sfs, sch⟩ := setChildren_parts n (n.children.set i m)
  refine depthOKb_of_parts _ ?_
  rw [sch, sd]
  intro x hx
  rcases List.mem_or_eq_of_mem_set hx with hx' | rfl
  · exact depthOKb_dest n hn x hx'
  · exact ⟨hd, hm⟩

theorem insert_depth (r : ℚ) (f : FaceToInsert) : ∀ fuel : Nat,
    (∀ n n' p, insertFaceN r fuel n f = some (n', p) → depthOKb n = true →
        depthOKb n' = true ∧ n'.depth = n.depth)
  ∧ (∀ n n' p, insertIntoChildN r fuel n f = some (n', p) → depthOKb n = true →
        depthOKb n' = true ∧ n'.depth = n.depth) := by
  intro fuel
  induction fuel with
  | zero =>
      constructor
      · intro n n' p h
        simp [insertFaceN] at h
      · intro n n' p h
        simp [insertIntoChildN] at h
  | succ fuel ih =>
      obtain ⟨ihF, ihC⟩ := ih
      constructor
      · intro n n' p h hdn
        simp only [insertFaceN] at h
        split at h
        · exact ihC n n' p h hdn
        · simp only [Option.some.injEq, Prod.mk.injEq] at h
          obtain ⟨h1, h2⟩ := h
          subst h1
          subst h2
          obtain ⟨-, -, hd, -, -⟩ := storeFace_parts n f
          rw [depthOKb_storeFace]
          exact ⟨hdn, hd⟩
      · intro n n' p h hdn
        simp only [insertIntoChildN] at h
        split at h
        case isTrue hemp =>
          obtain ⟨r1, r2⟩ := ihC n.makeChildren n' p h (depthOKb_makeChildren n)
          obtain ⟨-, -, mc_d, -, -⟩ := makeChildren_parts n
          exact ⟨r1, by rw [r2, mc_d]⟩
        case isFalse hemp =>
          split at h
          · exact absurd h (by simp)
          case _ m p' heq =>
            simp only [Option.some.injEq, Prod.mk.injEq] at h
            obtain ⟨h1, h2⟩ := h
            subst h1
            subst h2
            obtain ⟨sc, sw, sd, sfs, sch⟩ :=
              setChildren_parts n (n.children.set (childIndex n.center f.center) m)
            by_cases hi : childIndex n.center f.center < n.children.length
            · have hgd : n.children.getD (childIndex n.center f.center) default =
                  n.children[childIndex n.center f.center] := by
                rw [List.getD_eq_getElem?_getD, List.getElem?_eq_getElem hi]
                rfl
              have hmem : n.children.getD (childIndex n.center f.center) default ∈
                  n.children := by
                rw [hgd]
                exact List.getElem_mem hi
              obtain ⟨hd1, hd2⟩ := depthOKb_dest n hdn _ hmem
              obtain ⟨r1, r2⟩ := ihF _ m p' heq hd2
              exact ⟨depthOKb_set n m _ hi hdn r1 (by rw [r2]; exact hd1), sd⟩
            · rw [List.set_eq_of_length_le (le_of_not_lt hi), setChildren_self] at sd ⊢
              exact ⟨hdn, rfl⟩

theorem delete_depth (i : Nat) : ∀ (p : List Nat) (n : ONode), depthOKb n = true →
    depthOKb (n.deleteFaceAt p i) = true ∧ (n.deleteFaceAt p i).depth = n.depth := by
  intro p
  induction p with
  | nil =>
      intro n hdn
      rw [show n.deleteFaceAt [] i = n.removeFace i from rfl, depthOKb_removeFace]
      obtain ⟨-, -, hd, -, -⟩ := removeFace_parts n i
      exact ⟨hdn, hd⟩
  | cons a p' ih =>
      intro n hdn
      rw [deleteFaceAt_eq_cons]
      have hdefault : depthOKb (default : ONode) = true := rfl
      by_cases ha : a < n.children.length
      · have hgd : n.children.getD a default = n.children[a] := by
          rw [List.getD_eq_getElem?_getD, List.getElem?_eq_getElem ha]
          rfl
        have hmem : n.children.getD a default ∈ n.children := by
          rw [hgd]
          exact List.getElem_mem ha
        obtain ⟨hd1, hd2⟩ := depthOKb_dest n hdn _ hmem
        obtain ⟨r1, r2⟩ := ih _ hd2
        have hn1 := depthOKb_set n _ a ha hdn r1 (by rw [r2]; exact hd1)
        obtain ⟨sc, sw, sd, sfs, sch⟩ :=
          setChildren_parts n (n.children.set a ((n.children.getD a default).deleteFaceAt p' i))
        split
        · cases hall : ((n.setChildren
              (n.children.set a ((n.children.getD a default).deleteFaceAt p' i))).children).all
              ONode.isEmpty with
          | true =>
              rw [cen_of_all_true _ hall]
              obtain ⟨zc, zw, zd, zfs, zch⟩ := setChildren_parts _ ([] : List ONode)
              exact ⟨depthOKb_of_children_nil _ zch, by rw [zd, sd]⟩
          | false =>
              rw [cen_of_all_false _ hall]
              exact ⟨hn1, sd⟩
        · exact ⟨hn1, sd⟩
      · have hset : n.children.set a ((n.children.getD a default).deleteFaceAt p' i) =
            n.children := List.set_eq_of_length_le (le_of_not_lt ha)
        rw [hset, setChildren_self]
        split
        · cases hall : n.children.all ONode.isEmpty with
          | true =>
              rw [cen_of_all_true _ hall]
              obtain ⟨zc, zw, zd, zfs, zch⟩ := setChildren_parts n ([] : List ONode)
              exact ⟨depthOKb_of_children_nil _ zch, zd⟩
          | false =>
              rw [cen_of_all_false _ hall]
              exact ⟨hdn, rfl⟩
        · exact ⟨hdn, rfl⟩

theorem makeParent_spec (t : Octree) (rt : ONode) (f : FaceToInsert) :
    ∃ index nr, index < 8 ∧
      (t.makeParent rt f).root = some nr ∧
      (t.makeParent rt f).idMap = t.idMap.map (fun e => (e.1, index :: e.2)) ∧
      (t.makeParent rt f).rootWasSetup = t.rootWasSetup ∧
      (t.makeParent rt f).savePrimitives = t.savePrimitives ∧
      nr.depth = rt.depth - 1 ∧ nr.width = rt.width * 2 ∧ nr.faces = [] ∧
      nr.children = (makeChildrenList nr.center nr.width nr.depth).set index rt := by
  refine ⟨(if rt.center.x < f.center.x then 0 else 4) +
          (if rt.center.y < f.center.y then 0 else 2) +
          (if rt.center.z < f.center.z then 0 else 1), ?_⟩
  refine ⟨_, by split_ifs <;> norm_num, rfl, rfl, rfl, rfl, ?_, ?_, ?_, ?_⟩
  · simp [Octree.makeParent, ONode.setChildren, ONode.makeChildren, ONode.depth]
  · simp [Octree.makeParent, ONode.setChildren, ONode.makeChildren, ONode.width]
  · simp [Octree.makeParent, ONode.setChildren, ONode.makeChildren, ONode.faces]
  · simp [Octree.makeParent, ONode.setChildren, ONode.makeChildren, ONode.children,
      ONode.center, ONode.width, ONode.depth]

theorem makeParent_root_depthOK (rt nr : ONode) (index : Nat) (hi : index < 8)
    (hch : nr.children = (makeChildrenList nr.center nr.width nr.depth).set index rt)
    (hd : nr.depth = rt.depth - 1) (hdep : depthOKb rt = true) :
    depthOKb nr = true := by
  refine depthOKb_of_parts _ ?_
  rw [hch]
  intro x hx
  rcases List.mem_or_eq_of_mem_set hx with hx' | rfl
  · obtain ⟨-, hcnil, hcd, -, -, -⟩ := mem_makeChildrenList _ _ _ x hx'
    exact ⟨hcd, depthOKb_of_children_nil x hcnil⟩
  · constructor
    · rw [hd]
      ring
    · exact hdep

theorem shrinkGoN_depth : ∀ (fuel : Nat) (n : ONode), heightO n ≤ fuel →
    depthOKb n = true → depthOKb (shrinkGoN fuel n).1 = true := by
  intro fuel
  induction fuel with
  | zero =>
      intro n hh
      exact absurd hh (by have := heightO_pos n; omega)
  | succ fuel ih =>
      intro n hh h
      rw [show shrinkGoN (fuel + 1) n = (if n.faces.isEmpty = true ∧ n.children.isEmpty = false then
            match n.nonEmptyChildIndices with
            | [k] =>
                match n.children[k]? with
                | some c => ((shrinkGoN fuel c).1, (shrinkGoN fuel c).2 + 1)
                | none => (n, 0)
            | _ => (n, 0)
          else (n, 0)) from rfl]
      split
      case isTrue hcond =>
        split
        case _ k hx =>
          have hkmem : k ∈ n.nonEmptyChildIndices := by
            rw [hx]
            exact List.mem_cons_self _ _
          obtain ⟨hk8, hkne⟩ := (mem_nonEmptyChildIndices n k).1 hkmem
          have hsome := getElem?_of_getD_nonEmpty n k hkne
          split
          case _ c hc =>
            have hcmem : c ∈ n.children := List.getElem?_mem hc
            exact ih c (by have := heightO_child_lt n c hcmem; omega)
              (depthOKb_dest n h c hcmem).2
          case _ hc =>
            exact h
        case _ hne1 =>
          exact h
      case isFalse hcond =>
        exact h

theorem shrink_depth (n : ONode) (h : depthOKb n = true) :
    depthOKb (shrinkGo n).1 = true :=
  shrinkGoN_depth (heightO n) n le_rfl h

theorem shrinkRoot_parts (t : Octree) (rt : ONode) (hr : t.root = some rt) :
    t.shrinkRoot.root = some (shrinkGo rt).1 ∧
    t.shrinkRoot.idMap = t.idMap.map (fun e => (e.1, e.2.drop (shrinkGo rt).2)) ∧
    t.shrinkRoot.rootWasSetup = t.rootWasSetup := by
  simp [Octree.shrinkRoot, hr]

theorem initRoot_root (t : Octree) (f : FaceToInsert) :
    (t.initRoot f).root = some (ONode.mk
      (if t.rootWasSetup then t.rootPosition else f.center)
      (if t.rootWasSetup then t.rootWidth else f.oneDimExtent + floatEpsilon)
      0 [] [] []) := rfl

theorem initRoot_parts (t : Octree) (f : FaceToInsert) :
    (t.initRoot f).idMap = t.idMap ∧ (t.initRoot f).rootWasSetup = t.rootWasSetup ∧
    (t.initRoot f).savePrimitives = t.savePrimitives := ⟨rfl, rfl, rfl⟩

theorem insertFaceI_initRoot (fuel : Nat) (t : Octree) (f : FaceToInsert)
    (hroot : t.root = none) :
    Octree.insertFaceI (fuel + 1) t f = Octree.insertFaceI (fuel + 1) (t.initRoot f) f := by
  simp only [Octree.insertFaceI, Octree.hasRoot, hroot, Option.isSome_none,
    Bool.false_eq_true, if_false, initRoot_root, Option.isSome_some, if_true]

theorem insertFaceI_depth : ∀ (fuel : Nat) (t t' : Octree) (f : FaceToInsert),
    (∀ rt, t.root = some rt → depthOKb rt = true) →
    Octree.insertFaceI fuel t f = some t' →
    (∀ rt, t'.root = some rt → depthOKb rt = true) ∧
      t'.rootWasSetup = t.rootWasSetup := by
  intro fuel
  induction fuel with
  | zero =>
      intro t t' f hdep h
      simp [Octree.insertFaceI] at h
  | succ fuel ih =>
      intro t t' f hdep h
      have hsome : ∀ (s : Octree) (rt : ONode), s.root = some rt → depthOKb rt = true →
          Octree.insertFaceI (fuel + 1) s f = some t' →
          (∀ rx, t'.root = some rx → depthOKb rx = true) ∧
            t'.rootWasSetup = s.rootWasSetup := by
        intro s rt hsroot hdrt hs
        simp only [Octree.insertFaceI, Octree.hasRoot, hsroot, Option.isSome_some,
          if_true] at hs
        split at hs
        · split at hs
          · rename_i rt2 p2 heq2
            obtain rfl := Option.some_inj.1 hs
            refine ⟨?_, rfl⟩
            intro rx hrx
            have h2 : some rt2 = some rx := hrx
            obtain rfl := Option.some_inj.1 h2
            exact ((insert_depth relativeMinFaceExtent f fuel).1 rt rt2 p2 heq2 hdrt).1
          · exact absurd hs (by simp)
        · obtain ⟨index, nr, hi, hnr, hmap, hsetup, hsave, hd, hw, hfs, hch⟩ :=
            makeParent_spec s rt f
          have hdep2 : ∀ rx, (s.makeParent rt f).root = some rx → depthOKb rx = true := by
            intro rx hrx
            rw [hnr] at hrx
            obtain rfl := Option.some_inj.1 hrx
            exact makeParent_root_depthOK rt nr index hi hch hd hdrt
          obtain ⟨r1, r2⟩ := ih (s.makeParent rt f) t' f hdep2 hs
          exact ⟨r1, by rw [r2, hsetup]⟩
      cases hroot : t.root with
      | some rt =>
          exact hsome t rt hroot (hdep rt hroot) h
      | none =>
          rw [insertFaceI_initRoot fuel t f hroot] at h
          obtain ⟨r1, r2⟩ := hsome (t.initRoot f) _ (initRoot_root t f)
            (depthOKb_of_children_nil _ rfl) h
          refine ⟨r1, ?_⟩
          rw [r2]
          exact (initRoot_parts t f).2.1

theorem deleteFace_depth (t t' : Octree) (i : Nat)
    (hdep : ∀ rt, t.root = some rt → depthOKb rt = true)
    (h : t.deleteFace i = some t') :
    (∀ rt, t'.root = some rt → depthOKb rt = true) ∧
      t'.rootWasSetup = t.rootWasSetup := by
  cases hroot : t.root with
  | none => simp [Octree.deleteFace, hroot] at h
  | some rt =>
      cases hlk : idLookup t.idMap i with
      | none => simp [Octree.deleteFace, hroot, hlk] at h
      | some p =>
          simp only [Octree.deleteFace, hroot, hlk] at h
          have hd1 := (delete_depth i p rt (hdep rt hroot)).1
          split at h
          · obtain rfl := Option.some_inj.1 h
            refine ⟨?_, rfl⟩
            intro rx hrx
            cases hrx
          · obtain rfl := Option.some_inj.1 h
            obtain ⟨s1, s2, s3⟩ := shrinkRoot_parts
              { t with root := some (rt.deleteFaceAt p i), idMap := idErase t.idMap i } _ rfl
            refine ⟨?_, s3⟩
            intro rx hrx
            rw [s1] at hrx
            obtain rfl := Option.some_inj.1 hrx
            exact shrink_depth _ hd1

theorem realignFace_depth (fuel : Nat) (t t' : Octree) (fid : Nat) (tri : PrimTriangle)
    (hdep : ∀ rt, t.root = some rt → depthOKb rt = true)
    (h : t.realignFace fuel fid tri = some t') :
    ∀ rt, t'.root = some rt → depthOKb rt = true := by
  simp only [Octree.realignFace] at h
  split at h
  · cases hdel : t.deleteFace fid with
    | none =>
        rw [hdel] at h
        cases h
    | some t1 =>
        rw [hdel] at h
        obtain ⟨r1, -⟩ := deleteFace_depth t t1 fid hdep hdel
        exact (insertFaceI_depth fuel t1 t' _ r1 h).1
  · cases h

theorem applyOp_depth (t t' : Octree) (op : OctOp)
    (hdep : ∀ rt, t.root = some rt → depthOKb rt = true)
    (h : applyOp t op = some t') :
    ∀ rt, t'.root = some rt → depthOKb rt = true := by
  cases op with
  | insert fuel fid tri =>
      simp only [applyOp, Octree.insertFace] at h
      split at h
      · cases h
      · exact (insertFaceI_depth fuel t t' _ hdep h).1
  | delete fid =>
      exact (deleteFace_depth t t' fid hdep h).1
  | realign fuel fid tri =>
      exact realignFace_depth fuel t t' fid tri hdep h
  | setup pos w =>
      simp only [applyOp, Octree.setupRoot] at h
      split at h
      · cases h
      · obtain rfl := Option.some_inj.1 h
        intro rx hrx
        exact hdep rx hrx
  | reset =>
      simp only [applyOp, Octree.reset] at h
      obtain rfl := Option.some_inj.1 h
      intro rx hrx
      cases hrx

theorem applyOps_depth : ∀ (ops : List OctOp) (t t' : Octree),
    (∀ rt, t.root = some rt → depthOKb rt = true) →
    applyOps t ops = some t' →
    ∀ rt, t'.root = some rt → depthOKb rt = true := by
  intro ops
  induction ops with
  | nil =>
      intro t t' hdep h
      simp only [applyOps] at h
      obtain rfl := Option.some_inj.1 h
      exact hdep
  | cons op ops ih =>
      intro t t' hdep h
      simp only [applyOps] at h
      cases hstep : applyOp t op with
      | none =>
          rw [hstep] at h
          cases h
      | some t1 =>
          rw [hstep] at h
          exact ih t1 t' (applyOp_depth t t1 op hdep hstep) h

theorem reachable_depthOK (t : Octree) (h : Reachable t) :
    ∀ rt, t.root = some rt → depthOKb rt = true := by
  obtain ⟨s, ops, hops⟩ := h
  refine applyOps_depth ops (emptyOctree s) t ?_ hops
  intro rx hrx
  cases hrx

theorem pathsOKb_iff (rt : ONode) (l : List (Nat × List Nat)) :
    pathsOKb rt l = true ↔
      ∀ e ∈ l, ∃ m, nodeAt rt e.2 = some m ∧ ∃ fc ∈ m.faces, fc.id = e.1 := by
  simp only [pathsOKb, List.all_eq_true]
  constructor
  · intro h e he
    have h2 := h e he
    cases hm : nodeAt rt e.2 with
    | none =>
        rw [hm] at h2
        cases h2
    | some m =>
        rw [hm] at h2
        obtain ⟨fc, hfc, hid⟩ := List.any_eq_true.1 h2
        exact ⟨m, rfl, fc, hfc, by simpa using hid⟩
  · intro h e he
    obtain ⟨m, hm, fc, hfc, hid⟩ := h e he
    rw [hm]
    exact List.any_eq_true.2 ⟨fc, hfc, by simpa using hid⟩

theorem WFb_some_iff (t : Octree) (rt : ONode) (hr : t.root = some rt) :
    WFb t = true ↔
      rt.isEmpty = false ∧ nodeWFb rt = true ∧ (treeIds rt).Nodup ∧
      (treeIds rt).Perm (t.idMap.map Prod.fst) ∧
      ∀ e ∈ t.idMap, ∃ m, nodeAt rt e.2 = some m ∧ ∃ fc ∈ m.faces, fc.id = e.1 := by
  simp only [WFb, hr, Bool.and_eq_true, decide_eq_true_eq, Bool.not_eq_true',
    pathsOKb_iff, and_assoc]

theorem WFb_none_iff (t : Octree) (hr : t.root = none) :
    WFb t = true ↔ t.idMap = [] := by
  simp [WFb, hr, List.isEmpty_iff]

theorem approxContainsP_width_nonneg (n : ONode) (v : Vec3)
    (h : n.approxContainsP v = true) : 0 ≤ n.width := by
  simp only [ONode.approxContainsP, Bool.and_eq_true, decide_eq_true_eq] at h
  obtain ⟨⟨⟨⟨⟨h1, h2⟩, h3⟩, h4⟩, h5⟩, h6⟩ := h
  linarith

theorem approxContains_center_of_nonneg (n : ONode) (f : FaceToInsert)
    (hc : n.center = f.center) (hw : 0 ≤ n.width) (he : f.oneDimExtent ≤ n.width) :
    n.approxContains f = true := by
  simp only [ONode.approxContains, ONode.approxContainsP, hc, Bool.and_eq_true,
    decide_eq_true_eq]
  refine ⟨⟨⟨⟨⟨⟨?_, ?_⟩, ?_⟩, ?_⟩, ?_⟩, ?_⟩, he⟩ <;> linarith

theorem insertFaceI_none_of_neg_width : ∀ (fuel : Nat) (t : Octree) (rt : ONode)
    (f : FaceToInsert), t.root = some rt → rt.width < 0 →
    Octree.insertFaceI fuel t f = none := by
  intro fuel
  induction fuel with
  | zero =>
      intro t rt f hroot hw
      simp [Octree.insertFaceI]
  | succ fuel ih =>
      intro t rt f hroot hw
      simp only [Octree.insertFaceI, Octree.hasRoot, hroot, Option.isSome_some, if_true]
      have hnc : rt.approxContains f = false := by
        cases hac : rt.approxContains f
        · rfl
        · exfalso
          simp only [ONode.approxContains, Bool.and_eq_true] at hac
          have := approxContainsP_width_nonneg rt f.center hac.1
          linarith
      rw [hnc]
      simp only [Bool.false_eq_true, if_false]
      obtain ⟨index, nr, hi, hnr, hmap, hsetup, hsave, hd, hw2, hfs, hch⟩ :=
        makeParent_spec t rt f
      exact ih (t.makeParent rt f) nr f hnr (by rw [hw2]; linarith)

theorem hasFace_false_iff (t : Octree) (i : Nat) :
    t.hasFace i = false ↔ i ∉ t.idMap.map Prod.fst := by
  rw [← idLookup_isSome_iff]
  unfold Octree.hasFace
  cases h : (idLookup t.idMap i).isSome <;> simp [h]

theorem idMap_prepend_keys (l : List (Nat × List Nat)) (index : Nat) :
    (l.map fun e => (e.1, index :: e.2)).map Prod.fst = l.map Prod.fst := by
  induction l with
  | nil => rfl
  | cons e l ih => simp only [List.map_cons, ih]

theorem idMap_drop_keys (l : List (Nat × List Nat)) (d : Nat) :
    (l.map fun e => (e.1, e.2.drop d)).map Prod.fst = l.map Prod.fst := by
  induction l with
  | nil => rfl
  | cons e l ih => simp only [List.map_cons, ih]

theorem floatEpsilon_pos : 0 < floatEpsilon := by
  norm_num [floatEpsilon]

theorem makeParent_WF (rt nr : ONode) (index : Nat) (hi : index < 8)
    (hch : nr.children = (makeChildrenList nr.center nr.width nr.depth).set index rt)
    (hd : nr.depth = rt.depth - 1) (hfs : nr.faces = [])
    (hwf : nodeWFb rt = true) (hne : rt.isEmpty = false) :
    nodeWFb nr = true ∧ nr.isEmpty = false ∧ treeIds nr = treeIds rt ∧
    (∀ q, nodeAt nr (index :: q) = nodeAt rt q) := by
  have hlen : nr.children.length = 8 := by
    rw [hch, List.length_set, makeChildrenList_length]
  have hi' : index < nr.children.length := by rw [hlen]; exact hi
  have hi'' : index < ((makeChildrenList nr.center nr.width nr.depth).set index rt).length := by
    rw [List.length_set, makeChildrenList_length]
    exact hi
  have hrtat : nr.children[index]? = some rt := by
    rw [hch]
    exact List.getElem?_set_self (by rw [makeChildrenList_length]; exact hi)
  have hrtmem : rt ∈ nr.children := List.getElem?_mem hrtat
  refine ⟨?_, ?_, ?_, ?_⟩
  · refine nodeWFb_of_parts _ (Or.inr hlen) (Or.inr ⟨rt, hrtmem, hne⟩) ?_
    intro x hx
    rw [hch] at hx
    rcases List.mem_or_eq_of_mem_set hx with hx' | rfl
    · obtain ⟨-, hxnil, hxd, -, -, hxwf⟩ := mem_makeChildrenList _ _ _ x hx'
      exact ⟨hxd, hxwf⟩
    · exact ⟨by rw [hd]; ring, hwf⟩
  · rw [ONode.isEmpty_false_iff]
    rintro ⟨-, hnil⟩
    rw [hnil] at hlen
    simp at hlen
  · rw [treeIds_node nr, hfs, List.map_nil, List.nil_append, hch]
    have hsingle := treeIdsL_single
      ((makeChildrenList nr.center nr.width nr.depth).set index rt) index hi'' ?_
    · rw [hsingle, getD_of_getElem? _ _ _ (by
        rw [← hch]
        exact hrtat)]
    · intro j hjl hjk
      have hj8 : j < 8 := by
        rw [List.length_set, makeChildrenList_length] at hjl
        exact hjl
      have hmcl : ((makeChildrenList nr.center nr.width nr.depth).set index rt)[j]? =
          (makeChildrenList nr.center nr.width nr.depth)[j]? :=
        List.getElem?_set_ne (fun hx => hjk hx.symm)
      cases hmj : (makeChildrenList nr.center nr.width nr.depth)[j]? with
      | none =>
          rw [List.getElem?_eq_none_iff, makeChildrenList_length] at hmj
          omega
      | some mj =>
          rw [getD_of_getElem? _ _ _ (by rw [hmcl, hmj])]
          exact (mem_makeChildrenList _ _ _ mj (List.getElem?_mem hmj)).2.2.2.2.1
  · intro q
    rw [nodeAt_cons, hrtat, Option.some_bind]

theorem insertFaceI_spec : ∀ (fuel : Nat) (t t' : Octree) (f : FaceToInsert),
    WFb t = true → t.hasFace f.id = false →
    (t.root = none → t.rootWasSetup = false) →
    Octree.insertFaceI fuel t f = some t' →
    WFb t' = true ∧ t'.idMap.map Prod.fst = f.id :: t.idMap.map Prod.fst ∧
      t'.rootWasSetup = t.rootWasSetup := by
  intro fuel
  induction fuel with
  | zero =>
      intro t t' f hwf hnf hns h
      simp [Octree.insertFaceI] at h
  | succ fuel ih =>
      intro t t' f hwf hnf hns h
      have hsome : ∀ (s : Octree) (rt : ONode), s.root = some rt →
          nodeWFb rt = true → (treeIds rt).Nodup →
          (treeIds rt).Perm (s.idMap.map Prod.fst) →
          (∀ e ∈ s.idMap, ∃ m, nodeAt rt e.2 = some m ∧ ∃ fc ∈ m.faces, fc.id = e.1) →
          f.id ∉ s.idMap.map Prod.fst →
          (rt.approxContains f = false → rt.isEmpty = false ∨ rt.width < 0) →
          Octree.insertFaceI (fuel + 1) s f = some t' →
          WFb t' = true ∧ t'.idMap.map Prod.fst = f.id :: s.idMap.map Prod.fst ∧
            t'.rootWasSetup = s.rootWasSetup := by
        intro s rt hsroot hnwf hnodup hperm hpaths hfid hcase hs
        simp only [Octree.insertFaceI, Octree.hasRoot, hsroot, Option.isSome_some,
          if_true] at hs
        split at hs
        case isTrue hac =>
          split at hs
          · rename_i rt2 p2 heq2
            obtain rfl := Option.some_inj.1 hs
            obtain ⟨hcore, hnwf2⟩ := (insert_both relativeMinFaceExtent f fuel).1
              rt rt2 p2 heq2 hnwf
            obtain ⟨cc, cw, cd, cne, cperm, cloc, cpaths⟩ := hcore
            refine ⟨?_, rfl, rfl⟩
            rw [WFb_some_iff _ rt2 rfl]
            have hfid2 : f.id ∉ treeIds rt := fun hmem => hfid (hperm.mem_iff.1 hmem)
            refine ⟨cne, hnwf2, ?_, ?_, ?_⟩
            · exact (cperm.nodup_iff).2 (List.nodup_cons.2 ⟨hfid2, hnodup⟩)
            · refine cperm.trans ?_
              simp only [List.map_cons]
              exact hperm.cons f.id
            · intro e he
              rcases List.mem_cons.1 he with rfl | he2
              · exact cloc
              · obtain ⟨m0, hm0, fc0, hfc0, hid0⟩ := hpaths e he2
                obtain ⟨m0', hm0', hsub⟩ := cpaths e.2 m0 hm0
                obtain ⟨fc1, hfc1, hid1⟩ := hsub e.1 ⟨fc0, hfc0, hid0⟩
                exact ⟨m0', hm0', fc1, hfc1, hid1⟩
          · exact absurd hs (by simp)
        case isFalse hac =>
          have hacf : rt.approxContains f = false := by
            cases hac2 : rt.approxContains f
            · rfl
            · exact absurd hac2 hac
          obtain ⟨index, nr, hi, hnr, hmap, hsetup, hsave, hd, hw2, hfs2, hch⟩ :=
            makeParent_spec s rt f
          rcases hcase hacf with hne | hneg
          · obtain ⟨mwf, mne, mids, mat⟩ := makeParent_WF rt nr index hi hch hd hfs2 hnwf hne
            have hWF2 : WFb (s.makeParent rt f) = true := by
              rw [WFb_some_iff _ nr hnr]
              refine ⟨mne, mwf, by rw [mids]; exact hnodup, ?_, ?_⟩
              · rw [mids, hmap, idMap_prepend_keys]
                exact hperm
              · intro e he
                rw [hmap] at he
                obtain ⟨e0, he0, rfl⟩ := List.mem_map.1 he
                obtain ⟨m0, hm0, hface⟩ := hpaths e0 he0
                exact ⟨m0, by rw [show ((e0.1, index :: e0.2) : Nat × List Nat).2 =
                  index :: e0.2 from rfl, mat]; exact hm0, hface⟩
            have hnf2 : (s.makeParent rt f).hasFace f.id = false := by
              rw [hasFace_false_iff, hmap, idMap_prepend_keys]
              exact hfid
            have hns2 : (s.makeParent rt f).root = none → (s.makeParent rt f).rootWasSetup = false := by
              rw [hnr]
              intro hx
              cases hx
            obtain ⟨r1, r2, r3⟩ := ih (s.makeParent rt f) t' f hWF2 hnf2 hns2 hs
            refine ⟨r1, ?_, ?_⟩
            · rw [r2, hmap, idMap_prepend_keys]
            · rw [r3, hsetup]
          · have hnone := insertFaceI_none_of_neg_width fuel (s.makeParent rt f) nr f hnr
              (by rw [hw2]; linarith)
            rw [hnone] at hs
            cases hs
      cases hroot : t.root with
      | some rt =>
          obtain ⟨tne, twf, tnodup, tperm, tpaths⟩ := (WFb_some_iff t rt hroot).1 hwf
          have hfid : f.id ∉ t.idMap.map Prod.fst := (hasFace_false_iff t f.id).1 hnf
          exact hsome t rt hroot twf tnodup tperm tpaths hfid (fun _ => Or.inl tne) h
      | none =>
          have hmap0 : t.idMap = [] := (WFb_none_iff t hroot).1 hwf
          rw [insertFaceI_initRoot fuel t f hroot] at h
          have hws : t.rootWasSetup = false := hns hroot
          have hinit : (t.initRoot f).root =
              some (ONode.mk f.center (f.oneDimExtent + floatEpsilon) 0 [] [] []) := by
            rw [initRoot_root, hws]
            simp
          have hids0 : treeIds (ONode.mk f.center (f.oneDimExtent + floatEpsilon) 0 [] [] []) = [] := by
            rw [treeIds_mk]
            rfl
          have hkeys0 : (t.initRoot f).idMap = [] := by
            rw [(initRoot_parts t f).1, hmap0]
          have hcase0 : (ONode.mk f.center (f.oneDimExtent + floatEpsilon) 0 [] [] []).approxContains f = false →
              (ONode.mk f.center (f.oneDimExtent + floatEpsilon) 0 [] [] []).isEmpty = false ∨
              (ONode.mk f.center (f.oneDimExtent + floatEpsilon) 0 [] [] []).width < 0 := by
            intro hacf
            right
            by_contra hnn
            rw [not_lt] at hnn
            have hcon := approxContains_center_of_nonneg
              (ONode.mk f.center (f.oneDimExtent + floatEpsilon) 0 [] [] []) f rfl
              (by simpa [ONode.width_mk] using hnn)
              (by
                rw [ONode.width_mk]
                have := floatEpsilon_pos
                linarith)
            rw [hcon] at hacf
            cases hacf
          obtain ⟨r1, r2, r3⟩ := hsome (t.initRoot f) _ hinit (nodeWFb_leaf _ _ _ _ _)
            (by rw [hids0]; exact List.nodup_nil)
            (by rw [hids0, hkeys0]; rfl)
            (by rw [hkeys0]; intro e he; cases he)
            (by rw [hkeys0]; simp)
            hcase0 h
          refine ⟨r1, ?_, ?_⟩
          · rw [r2, hkeys0, hmap0]
          · rw [r3, (initRoot_parts t f).2.1]

theorem idErase_key_ne (l : List (Nat × List Nat)) (i : Nat)
    (hnd : (l.map Prod.fst).Nodup) (e : Nat × List Nat) (he : e ∈ idErase l i) :
    e.1 ≠ i := by
  induction l with
  | nil =>
      simp [idErase] at he
  | cons x l ih =>
      simp only [idErase] at he
      rw [List.map_cons, List.nodup_cons] at hnd
      by_cases hx : x.1 = i
      · rw [if_pos hx] at he
        intro hei
        refine hnd.1 ?_
        rw [hx, ← hei]
        exact List.mem_map.2 ⟨e, he, rfl⟩
      · rw [if_neg hx] at he
        rcases List.mem_cons.1 he with rfl | he2
        · exact hx
        · exact ih hnd.2 he2

theorem deleteFace_spec (t t' : Octree) (i : Nat)
    (hwf : WFb t = true) (h : t.deleteFace i = some t') :
    WFb t' = true ∧ t'.idMap.map Prod.fst = (t.idMap.map Prod.fst).erase i ∧
      t'.rootWasSetup = t.rootWasSetup := by
  cases hroot : t.root with
  | none => simp [Octree.deleteFace, hroot] at h
  | some rt =>
      cases hlk : idLookup t.idMap i with
      | none => simp [Octree.deleteFace, hroot, hlk] at h
      | some p =>
          obtain ⟨tne, twf, tnodup, tperm, tpaths⟩ := (WFb_some_iff t rt hroot).1 hwf
          have hmem := idLookup_mem t.idMap i p hlk
          obtain ⟨mnode, hmnode, hface⟩ := tpaths (i, p) hmem
          obtain ⟨dc, dw, dd, dperm, dpaths, dwf⟩ :=
            deleteFaceAt_spec i p rt mnode hmnode hface
          simp only [Octree.deleteFace, hroot, hlk] at h
          have hkeys : (idErase t.idMap i).map Prod.fst = (t.idMap.map Prod.fst).erase i :=
            idErase_keys t.idMap i
          have hikey : i ∈ t.idMap.map Prod.fst := List.mem_map.2 ⟨(i, p), hmem, rfl⟩
          have hkeysnd : (t.idMap.map Prod.fst).Nodup := tperm.nodup_iff.1 tnodup
          have hperm' : (treeIds (rt.deleteFaceAt p i)).Perm
              ((t.idMap.map Prod.fst).erase i) := by
            have h1 : (i :: treeIds (rt.deleteFaceAt p i)).Perm
                (i :: (t.idMap.map Prod.fst).erase i) :=
              dperm.symm.trans (tperm.trans (List.perm_cons_erase hikey))
            exact h1.cons_inv
          have hnodup' : (treeIds (rt.deleteFaceAt p i)).Nodup := by
            have h2 := (dperm.nodup_iff).1 tnodup
            exact (List.nodup_cons.1 h2).2
          have hpaths' : ∀ e ∈ idErase t.idMap i,
              ∃ m, nodeAt (rt.deleteFaceAt p i) e.2 = some m ∧
                ∃ fc ∈ m.faces, fc.id = e.1 := by
            intro e he
            have he0 : e ∈ t.idMap := mem_idErase _ _ _ he
            obtain ⟨m0, hm0, hf0⟩ := tpaths e he0
            exact dpaths e.2 m0 e.1 (idErase_key_ne t.idMap i hkeysnd e he) hm0 hf0
          split at h
          case isTrue hempty =>
            obtain rfl := Option.some_inj.1 h
            refine ⟨?_, by simpa using hkeys, rfl⟩
            rw [WFb_none_iff _ rfl]
            have hz : (idErase t.idMap i).map Prod.fst = [] := by
              have h2 : treeIds (rt.deleteFaceAt p i) = [] := treeIds_of_isEmpty _ hempty
              rw [h2] at hperm'
              rw [hkeys]
              exact (List.Perm.nil_eq hperm').symm
            exact List.map_eq_nil_iff.mp hz
          case isFalse hempty =>
            obtain rfl := Option.some_inj.1 h
            obtain ⟨s1, s2, s3⟩ := shrinkRoot_parts
              { t with root := some (rt.deleteFaceAt p i), idMap := idErase t.idMap i } _ rfl
            have hwf' := dwf twf
            have hne' : (rt.deleteFaceAt p i).isEmpty = false := by
              simpa using hempty
            obtain ⟨g1, g2, g3, g4, g5⟩ := shrinkGo_spec (rt.deleteFaceAt p i) hwf' hne'
            refine ⟨?_, ?_, s3⟩
            · rw [WFb_some_iff _ _ s1]
              refine ⟨g2, g1, by rw [g3]; exact hnodup', ?_, ?_⟩
              · rw [g3, s2, idMap_drop_keys, hkeys]
                exact hperm'
              · intro e he
                rw [s2] at he
                obtain ⟨e0, he0, rfl⟩ := List.mem_map.1 he
                obtain ⟨m0, hm0, hf0⟩ := hpaths' e0 he0
                exact g4 e0.2 m0 e0.1 hm0 hf0
            · rw [s2, idMap_drop_keys, hkeys]

theorem deleteFace_some (t : Octree) (i : Nat) (hwf : WFb t = true)
    (hmem : i ∈ t.idMap.map Prod.fst) : ∃ t', t.deleteFace i = some t' := by
  cases hroot : t.root with
  | none =>
      rw [(WFb_none_iff t hroot).1 hwf] at hmem
      simp at hmem
  | some rt =>
      have hlk : (idLookup t.idMap i).isSome = true := (idLookup_isSome_iff _ _).2 hmem
      cases hlkv : idLookup t.idMap i with
      | none =>
          rw [hlkv] at hlk
          cases hlk
      | some p =>
          simp only [Octree.deleteFace, hroot, hlkv]
          split
          · exact ⟨_, rfl⟩
          · exact ⟨_, rfl⟩

theorem reset_WF (t : Octree) : WFb t.reset = true ∧ t.reset.rootWasSetup = false ∧
    t.reset.idMap = [] := by
  refine ⟨?_, rfl, rfl⟩
  rw [WFb_none_iff _ rfl]
  rfl

theorem emptyOctree_WF (s : Bool) : WFb (emptyOctree s) = true ∧
    (emptyOctree s).rootWasSetup = false ∧ (emptyOctree s).idMap = [] := by
  refine ⟨?_, rfl, rfl⟩
  rw [WFb_none_iff _ rfl]
  rfl

theorem applyOp_WFS (t t' : Octree) (op : OctOp)
    (hwf : WFb t = true) (hws : t.rootWasSetup = false)
    (hop : op.isSetup = false) (h : applyOp t op = some t') :
    WFb t' = true ∧ t'.rootWasSetup = false ∧
      (t'.idMap.map Prod.fst).Perm (liveStep (t.idMap.map Prod.fst) op) := by
  cases op with
  | insert fuel fid tri =>
      simp only [applyOp, Octree.insertFace] at h
      split at h
      case isTrue => cases h
      case isFalse hnf =>
        obtain ⟨r1, r2, r3⟩ := insertFaceI_spec fuel t t' _ hwf (by simpa using hnf)
          (fun _ => hws) h
        exact ⟨r1, by rw [r3]; exact hws, by rw [r2]; exact List.Perm.refl _⟩
  | delete fid =>
      obtain ⟨r1, r2, r3⟩ := deleteFace_spec t t' fid hwf h
      exact ⟨r1, by rw [r3]; exact hws, by rw [r2]; exact List.Perm.refl _⟩
  | realign fuel fid tri =>
      simp only [applyOp, Octree.realignFace] at h
      split at h
      case isFalse => cases h
      case isTrue hhf =>
        cases hdel : t.deleteFace fid with
        | none =>
            rw [hdel] at h
            cases h
        | some t1 =>
            rw [hdel] at h
            obtain ⟨d1, d2, d3⟩ := deleteFace_spec t t1 fid hwf hdel
            have hfid_mem : fid ∈ t.idMap.map Prod.fst := by
              by_contra hc
              rw [← hasFace_false_iff] at hc
              rw [hc] at hhf
              cases hhf
            have hkeysnd : (t.idMap.map Prod.fst).Nodup := by
              cases hroot : t.root with
              | none =>
                  rw [(WFb_none_iff t hroot).1 hwf]
                  exact List.nodup_nil
              | some rt =>
                  obtain ⟨-, -, tnodup, tperm, -⟩ := (WFb_some_iff t rt hroot).1 hwf
                  exact tperm.nodup_iff.1 tnodup
            have hnf1 : t1.hasFace fid = false := by
              rw [hasFace_false_iff, d2]
              exact hkeysnd.not_mem_erase
            obtain ⟨r1, r2, r3⟩ := insertFaceI_spec fuel t1 t' _ d1 hnf1
              (fun _ => d3.trans hws) h
            refine ⟨r1, by rw [r3, d3]; exact hws, ?_⟩
            rw [r2, d2]
            exact (List.perm_cons_erase hfid_mem).symm
  | setup pos w =>
      simp [OctOp.isSetup] at hop
  | reset =>
      simp only [applyOp] at h
      obtain rfl := Option.some_inj.1 h
      obtain ⟨r1, r2, r3⟩ := reset_WF t
      exact ⟨r1, r2, by rw [r3]; exact List.Perm.refl _⟩

theorem liveStep_perm (l l' : List Nat) (op : OctOp) (h : l.Perm l') :
    (liveStep l op).Perm (liveStep l' op) := by
  cases op with
  | insert fuel fid tri => exact h.cons fid
  | delete fid => exact h.erase fid
  | realign fuel fid tri => exact h
  | setup pos w => exact h
  | reset => exact List.Perm.refl _

theorem foldl_liveStep_perm : ∀ (ops : List OctOp) (acc acc' : List Nat),
    acc.Perm acc' → (ops.foldl liveStep acc).Perm (ops.foldl liveStep acc') := by
  intro ops
  induction ops with
  | nil =>
      intro acc acc' hacc
      exact hacc
  | cons op2 ops2 ih2 =>
      intro acc acc' hacc
      simp only [List.foldl_cons]
      exact ih2 _ _ (liveStep_perm _ _ op2 hacc)

theorem applyOps_WFS : ∀ (ops : List OctOp) (t t' : Octree),
    WFb t = true → t.rootWasSetup = false →
    (∀ op ∈ ops, op.isSetup = false) →
    applyOps t ops = some t' →
    WFb t' = true ∧ t'.rootWasSetup = false ∧
      (t'.idMap.map Prod.fst).Perm (ops.foldl liveStep (t.idMap.map Prod.fst)) := by
  intro ops
  induction ops with
  | nil =>
      intro t t' hwf hws hns h
      simp only [applyOps] at h
      obtain rfl := Option.some_inj.1 h
      exact ⟨hwf, hws, List.Perm.refl _⟩
  | cons op ops ih =>
      intro t t' hwf hws hns h
      simp only [applyOps] at h
      cases hstep : applyOp t op with
      | none =>
          rw [hstep] at h
          cases h
      | some t1 =>
          rw [hstep] at h
          obtain ⟨r1, r2, r3⟩ := applyOp_WFS t t1 op hwf hws (hns op (by simp)) hstep
          obtain ⟨s1, s2, s3⟩ := ih t1 t' r1 r2 (fun x hx => hns x (by simp [hx])) h
          refine ⟨s1, s2, ?_⟩
          rw [List.foldl_cons]
          exact s3.trans (foldl_liveStep_perm ops _ _ r3)

theorem reachableNS_WF (t : Octree) (h : ReachableNS t) :
    WFb t = true ∧ t.rootWasSetup = false := by
  obtain ⟨s, ops, hns, hops⟩ := h
  obtain ⟨e1, e2, e3⟩ := emptyOctree_WF s
  obtain ⟨r1, r2, -⟩ := applyOps_WFS ops _ t e1 e2 hns hops
  exact ⟨r1, r2⟩

theorem treeIds_mem_nil (cs : List ONode) (h : treeIdsL cs = []) :
    ∀ c ∈ cs, treeIds c = [] := by
  induction cs with
  | nil =>
      intro c hc
      cases hc
  | cons c0 cs ih =>
      simp only [treeIdsL, List.append_eq_nil] at h
      intro c hc
      rcases List.mem_cons.1 hc with rfl | hc2
      · exact h.1
      · exact ih h.2 c hc2

theorem treeIds_ne_nil : ∀ (n : ONode), nodeWFb n = true → n.isEmpty = false →
    treeIds n ≠ []
  | ONode.mk c w d fs ps ch => by
      intro hwf hne hnil
      rw [treeIds_mk, List.append_eq_nil] at hnil
      obtain ⟨hfs, hch⟩ := hnil
      have hfs' : fs = [] := List.map_eq_nil_iff.mp hfs
      rw [ONode.isEmpty_false_iff] at hne
      have hchne : ch ≠ [] := by
        intro h2
        exact hne ⟨by rw [ONode.faces_mk]; exact hfs', by rw [ONode.children_mk]; exact h2⟩
      obtain ⟨-, hex, hkids⟩ := (nodeWFb_iff c w d fs ps ch).1 hwf
      rcases hex with h2 | ⟨x, hxmem, hxne⟩
      · exact hchne h2
      · have hxwf := (hkids x hxmem).2
        have hxids : treeIds x = [] := treeIds_mem_nil ch hch x hxmem
        exact treeIds_ne_nil x hxwf hxne hxids
termination_by n => sizeOf n
decreasing_by
  have := List.sizeOf_lt_of_mem hxmem
  simp only [ONode.mk.sizeOf_spec]
  omega

theorem root_none_of_keys_nil (t : Octree) (hwf : WFb t = true)
    (hk : t.idMap.map Prod.fst = []) : t.root = none := by
  cases hroot : t.root with
  | none => rfl
  | some rt =>
      obtain ⟨tne, twf, tnodup, tperm, -⟩ := (WFb_some_iff t rt hroot).1 hwf
      rw [hk] at tperm
      exact absurd (List.Perm.nil_eq tperm.symm).symm (treeIds_ne_nil rt twf tne)

theorem deleteAll : ∀ (ds : List Nat) (t : Octree), WFb t = true →
    t.rootWasSetup = false → ds.Perm (t.idMap.map Prod.fst) →
    ∃ t', applyOps t (ds.map OctOp.delete) = some t' ∧ t'.root = none ∧ t'.idMap = [] := by
  intro ds
  induction ds with
  | nil =>
      intro t hwf hws hperm
      have hk : t.idMap.map Prod.fst = [] := (List.Perm.nil_eq hperm).symm
      exact ⟨t, by simp [applyOps], root_none_of_keys_nil t hwf hk,
        List.map_eq_nil_iff.mp hk⟩
  | cons i ds ih =>
      intro t hwf hws hperm
      have hmem : i ∈ t.idMap.map Prod.fst := hperm.subset (List.mem_cons_self i ds)
      obtain ⟨t1, hdel⟩ := deleteFace_some t i hwf hmem
      obtain ⟨d1, d2, d3⟩ := deleteFace_spec t t1 i hwf hdel
      have hperm1 : ds.Perm (t1.idMap.map Prod.fst) := by
        rw [d2]
        exact (hperm.trans (List.perm_cons_erase hmem)).cons_inv
      obtain ⟨t', hops, hr, hm⟩ := ih t1 d1 (by rw [d3]; exact hws) hperm1
      refine ⟨t', ?_, hr, hm⟩
      simp only [List.map_cons, applyOps, applyOp, hdel]
      exact hops

theorem widthCoherentL_iff (w : ℚ) (cs : List ONode) :
    widthCoherentL w cs = true ↔
      ∀ c ∈ cs, c.width = w * (1/2) ∧ widthCoherent c = true := by
  induction cs with
  | nil => simp [widthCoherentL]
  | cons c cs ih =>
      simp only [widthCoherentL, Bool.and_eq_true, decide_eq_true_eq, ih, List.mem_cons]
      constructor
      · rintro ⟨⟨h1, h2⟩, h3⟩ x hx
        rcases hx with rfl | hx
        · exact ⟨h1, h2⟩
        · exact h3 x hx
      · intro h
        exact ⟨⟨(h c (by left; rfl)).1, (h c (by left; rfl)).2⟩,
               fun x hx => h x (Or.inr hx)⟩

theorem widthCoherent_dest (n : ONode) (h : widthCoherent n = true) :
    ∀ c ∈ n.children, c.width = n.width * (1/2) ∧ widthCoherent c = true := by
  cases n with
  | mk c w d fs ps ch =>
      exact (widthCoherentL_iff w ch).1 h

theorem widthCoherent_leaf (c : Vec3) (w : ℚ) (d : Int) (fs : List WFace)
    (ps : List (Nat × PrimTriangle)) : widthCoherent (.mk c w d fs ps []) = true := rfl

theorem widthCoherent_makeChildren_child (n : ONode) (x : ONode)
    (hx : x ∈ n.makeChildren.children) :
    x.width = n.width * (1/2) ∧ widthCoherent x = true := by
  obtain ⟨-, -, -, -, mc_ch⟩ := makeChildren_parts n
  rw [mc_ch] at hx
  obtain ⟨-, hxnil, -, hxw, -, -⟩ := mem_makeChildrenList _ _ _ x hx
  refine ⟨hxw, ?_⟩
  cases x with
  | mk xc xw xd xfs xps xch =>
      rw [ONode.children_mk] at hxnil
      subst hxnil
      exact widthCoherent_leaf _ _ _ _ _

theorem insert_terminates_aux (r : ℚ) (f : FaceToInsert) (he : 0 < f.oneDimExtent) :
    ∀ (k : Nat) (n : ONode), widthCoherent n = true →
      n.width * r < f.oneDimExtent * 2 ^ k →
      ∃ fuel x, insertFaceN r fuel n f = some x := by
  intro k
  induction k with
  | zero =>
      intro n hcoh hlt
      rw [pow_zero, mul_one] at hlt
      refine ⟨1, (n.storeFace f, []), ?_⟩
      show insertFaceN r (0 + 1) n f = _
      simp only [insertFaceN]
      rw [if_neg (not_le.2 hlt)]
  | succ k ih =>
      intro n hcoh hlt
      by_cases hc : f.oneDimExtent ≤ n.width * r
      · -- descend into a child of half width
        have hhalf : (n.width * (1/2)) * r < f.oneDimExtent * 2 ^ k := by
          rw [pow_succ] at hlt
          nlinarith [hlt]
        by_cases hemp : n.children.isEmpty = true
        · -- makeChildren first
          have hi : childIndex n.makeChildren.center f.center < 8 := childIndex_lt _ _
          obtain ⟨-, mc_w, -, -, mc_ch⟩ := makeChildren_parts n
          have hlen : n.makeChildren.children.length = 8 := by
            rw [mc_ch, makeChildrenList_length]
          have hmem : n.makeChildren.children.getD
              (childIndex n.makeChildren.center f.center) default ∈
              n.makeChildren.children := by
            rw [getD_of_getElem? _ _ _ (List.getElem?_eq_getElem (by rw [hlen]; exact hi))]
            exact List.getElem_mem _
          obtain ⟨hxw, hxcoh⟩ := widthCoherent_makeChildren_child n _ hmem
          obtain ⟨fuel0, y, hy⟩ := ih _ hxcoh (by rw [hxw]; exact hhalf)
          refine ⟨fuel0 + 3, ((n.makeChildren).setChildren
            ((n.makeChildren).children.set (childIndex n.makeChildren.center f.center) y.1),
            childIndex n.makeChildren.center f.center :: y.2), ?_⟩
          show insertFaceN r (fuel0 + 2 + 1) n f = _
          simp only [insertFaceN]
          rw [if_pos hc]
          show insertIntoChildN r (fuel0 + 1 + 1) n f = _
          simp only [insertIntoChildN]
          rw [if_pos hemp]
          show insertIntoChildN r (fuel0 + 1) n.makeChildren f = _
          simp only [insertIntoChildN]
          rw [if_neg (by rw [mc_ch]; simp [makeChildrenList])]
          obtain ⟨m, p⟩ := y
          rw [hy]
        · -- existing children
          have hwidth : (n.children.getD (childIndex n.center f.center) default).width * r <
              f.oneDimExtent * 2 ^ k ∧
              widthCoherent (n.children.getD (childIndex n.center f.center) default) = true := by
            by_cases hin : childIndex n.center f.center < n.children.length
            · have hmem : n.children.getD (childIndex n.center f.center) default ∈
                  n.children := by
                rw [getD_of_getElem? _ _ _ (List.getElem?_eq_getElem hin)]
                exact List.getElem_mem _
              obtain ⟨hxw, hxcoh⟩ := widthCoherent_dest n hcoh _ hmem
              exact ⟨by rw [hxw]; exact hhalf, hxcoh⟩
            · rw [List.getD_eq_getElem?_getD, List.getElem?_eq_none (le_of_not_lt hin)]
              constructor
              · show (0 : ℚ) * r < _
                rw [zero_mul]
                positivity
              · exact widthCoherent_leaf _ _ _ _ _
          obtain ⟨fuel0, y, hy⟩ := ih _ hwidth.2 hwidth.1
          refine ⟨fuel0 + 2, (n.setChildren
            (n.children.set (childIndex n.center f.center) y.1),
            childIndex n.center f.center :: y.2), ?_⟩
          show insertFaceN r (fuel0 + 1 + 1) n f = _
          simp only [insertFaceN]
          rw [if_pos hc]
          show insertIntoChildN r (fuel0 + 1) n f = _
          simp only [insertIntoChildN]
          rw [if_neg hemp]
          obtain ⟨m, p⟩ := y
          rw [hy]
      · refine ⟨1, (n.storeFace f, []), ?_⟩
        show insertFaceN r (0 + 1) n f = _
        simp only [insertFaceN]
        rw [if_neg hc]

mutual

theorem sphereAcc_eq (bt : Vec3 → ℚ → Bool) (ft : WFace → Bool) :
    ∀ (n : ONode) (acc : List WFace),
      sphereAcc bt ft n acc = acc ++ sphereMatches bt ft n
  | ONode.mk c w d fs ps ch, acc => by
      simp only [sphereAcc, sphereMatches]
      split
      · rw [sphereAccL_eq bt ft ch (acc ++ fs.filter ft), List.append_assoc]
      · rw [List.append_nil]
termination_by n acc => sizeOf n
decreasing_by
  simp only [ONode.mk.sizeOf_spec]
  omega

theorem sphereAccL_eq (bt : Vec3 → ℚ → Bool) (ft : WFace → Bool) :
    ∀ (cs : List ONode) (acc : List WFace),
      sphereAccL bt ft cs acc = acc ++ sphereMatchesL bt ft cs
  | [], acc => by
      simp [sphereAccL, sphereMatchesL]
  | c :: cs, acc => by
      simp only [sphereAccL, sphereMatchesL]
      rw [sphereAcc_eq bt ft c acc, sphereAccL_eq bt ft cs _, List.append_assoc]
termination_by cs acc => sizeOf cs
decreasing_by
  · simp only [List.cons.sizeOf_spec]
    omega
  · simp only [List.cons.sizeOf_spec]
    omega

end

theorem applyOps_append (a b : List OctOp) : ∀ t : Octree,
    applyOps t (a ++ b) =
      match applyOps t a with
      | some t1 => applyOps t1 b
      | none => none := by
  induction a with
  | nil =>
      intro t
      simp [applyOps]
  | cons op a ih =>
      intro t
      simp only [List.cons_append, applyOps]
      cases applyOp t op with
      | none => rfl
      | some t1 => exact ih t1

theorem foldl_liveStep_inserts : ∀ (ops : List OctOp) (l : List Nat),
    (∀ op ∈ ops, op.isInsert = true) →
    ops.foldl liveStep l = (insIds ops).reverse ++ l := by
  intro ops
  induction ops with
  | nil =>
      intro l h
      simp [insIds]
  | cons op ops ih =>
      intro l h
      have hop := h op (List.mem_cons_self _ _)
      cases op with
      | insert fuel fid tri =>
          simp only [List.foldl_cons, liveStep]
          rw [ih (fid :: l) (fun x hx => h x (List.mem_cons_of_mem _ hx))]
          simp [insIds, List.filterMap_cons]
      | delete fid => simp [OctOp.isInsert] at hop
      | realign fuel fid tri => simp [OctOp.isInsert] at hop
      | setup pos w => simp [OctOp.isInsert] at hop
      | reset => simp [OctOp.isInsert] at hop

theorem find_by_id_some (l : List WFace) (i : Nat)
    (h : ∃ fc ∈ l, fc.id = i) :
    ∃ fc, (l.find? fun fc => fc.id == i) = some fc ∧ fc.id = i := by
  have hs : (l.find? fun fc => fc.id == i).isSome = true := by
    rw [List.find?_isSome]
    obtain ⟨fc0, hmem, hid⟩ := h
    exact ⟨fc0, hmem, by simp [hid]⟩
  cases hf : l.find? fun fc => fc.id == i with
  | none =>
      rw [hf] at hs
      cases hs
  | some fc =>
      have hp := List.find?_some hf
      exact ⟨fc, rfl, by simpa using hp⟩

theorem deleteFace_shrink (t t' : Octree) (i : Nat)
    (hwf : WFb t = true) (h : t.deleteFace i = some t') :
    t'.root = none ∨
      ∃ rt', t'.root = some rt' ∧
        (rt'.faces ≠ [] ∨ 2 ≤ rt'.nonEmptyChildIndices.length) := by
  cases hroot : t.root with
  | none => simp [Octree.deleteFace, hroot] at h
  | some rt =>
      cases hlk : idLookup t.idMap i with
      | none => simp [Octree.deleteFace, hroot, hlk] at h
      | some p =>
          obtain ⟨tne, twf, tnodup, tperm, tpaths⟩ := (WFb_some_iff t rt hroot).1 hwf
          have hmem := idLookup_mem t.idMap i p hlk
          obtain ⟨mnode, hmnode, hface⟩ := tpaths (i, p) hmem
          obtain ⟨dc, dw, dd, dperm, dpaths, dwf⟩ :=
            deleteFaceAt_spec i p rt mnode hmnode hface
          simp only [Octree.deleteFace, hroot, hlk] at h
          split at h
          · obtain rfl := Option.some_inj.1 h
            left
            rfl
          · rename_i hne
            obtain rfl := Option.some_inj.1 h
            right
            have hne2 : (rt.deleteFaceAt p i).isEmpty = false :=
              Bool.not_eq_true _ ▸ Bool.of_not_eq_true hne
            obtain ⟨g1, g2, g3, g4, g5⟩ :=
              shrinkGo_spec (rt.deleteFaceAt p i) (dwf twf) hne2
            obtain ⟨s1, s2, s3⟩ := shrinkRoot_parts
              { t with root := some (rt.deleteFaceAt p i), idMap := idErase t.idMap i }
              (rt.deleteFaceAt p i) rfl
            exact ⟨(shrinkGo (rt.deleteFaceAt p i)).1, s1, g5⟩

/-- Claim C1: for every sequence of face insertions into an initially empty
tree followed by deletions of all inserted ids in any order, the final state
has no root and an empty face-id index. -/
theorem insert_then_delete_all_empties (s : Bool) (ins : List OctOp) (ds : List Nat)
    (t' : Octree)
    (hall : ∀ op ∈ ins, op.isInsert = true)
    (hperm : ds.Perm (insIds ins))
    (h : applyOps (emptyOctree s) (ins ++ ds.map OctOp.delete) = some t') :
    t'.hasRoot = false ∧ t'.numFaces = 0 := by
  rw [applyOps_append] at h
  cases hmid : applyOps (emptyOctree s) ins with
  | none =>
      rw [hmid] at h
      cases h
  | some t1 =>
      simp only [hmid] at h
      obtain ⟨e1, e2, e3⟩ := emptyOctree_WF s
      have hns : ∀ op ∈ ins, op.isSetup = false := by
        intro op hop
        have hi := hall op hop
        cases op <;> simp_all [OctOp.isInsert, OctOp.isSetup]
      obtain ⟨w1, w2, w3⟩ := applyOps_WFS ins _ t1 e1 e2 hns hmid
      rw [e3] at w3
      simp only [List.map_nil] at w3
      rw [foldl_liveStep_inserts ins [] hall, List.append_nil] at w3
      have hperm2 : ds.Perm (t1.idMap.map Prod.fst) :=
        hperm.trans ((List.reverse_perm (insIds ins)).symm.trans w3.symm)
      obtain ⟨t2, hops2, hroot2, hmap2⟩ := deleteAll ds t1 w1 w2 hperm2
      rw [hops2] at h
      obtain rfl := Option.some_inj.1 h
      refine ⟨?_, ?_⟩
      · rw [Octree.hasRoot, hroot2]
        rfl
      · rw [Octree.numFaces, hmap2]
        rfl

/-- Claim C2 (amended): the spec asks that no reachable non-root node be
empty; an insertion that subdivides a node leaves up to seven freshly
created empty children in place, so the code only maintains the weaker
invariant that every subdivided node keeps at least one non-empty child
(on setup-free traces). -/
theorem subdivided_node_keeps_nonempty_child (t : Octree) (rt m : ONode)
    (p : List Nat) (h : ReachableNS t) (hr : t.root = some rt)
    (hp : nodeAt rt p = some m) (hch : m.children.isEmpty = false) :
    ∃ c ∈ m.children, c.isEmpty = false := by
  obtain ⟨hwf, -⟩ := reachableNS_WF t h
  obtain ⟨-, twf, -, -, -⟩ := (WFb_some_iff t rt hr).1 hwf
  have hm := nodeWFb_nodeAt p rt m twf hp
  obtain ⟨-, hne, -⟩ := nodeWFb_dest m hm
  rcases hne with hnil | hex
  · rw [hnil] at hch
    simp at hch
  · exact hex

/-- Claim C2, counterexample: after two insertions from an empty tree the
root is subdivided and its first child is an empty non-root node (zero
faces, zero children), so pruning is not eager in the claimed sense. -/
theorem empty_child_after_insert_counterexample :
    ((applyOps (emptyOctree false)
        [.insert 9 1 ⟨⟨0, 0, 0⟩, 1⟩, .insert 9 2 ⟨⟨1/4, 1/4, 1/4⟩, 1/16⟩]).bind
      Octree.root).map (fun rt => (rt.children.length,
        (rt.children.getD 0 default).faces.length,
        (rt.children.getD 0 default).children.length)) = some (8, 0, 0) := by
  with_unfolding_all decide

/-- Claim C3 (amended): a face is pushed down exactly when its extent is at
most `width * relativeMinFaceExtent` (the returned path is nonempty and the
children, freshly created when absent, number eight); otherwise the face is
stored in the current node's face list with the children left exactly as
they were - contrary to the claim, the store branch never creates
children. -/
theorem face_descends_iff_extent_small (r : ℚ) (f : FaceToInsert) (fuel : Nat)
    (n n' : ONode) (p : List Nat)
    (h : insertFaceN r (fuel + 1) n f = some (n', p)) :
    (f.oneDimExtent ≤ n.width * r →
        p ≠ [] ∧
        n'.children.length = (if n.children.isEmpty then 8 else n.children.length)) ∧
    (¬ f.oneDimExtent ≤ n.width * r →
        p = [] ∧ n'.children = n.children ∧ n'.faces = ⟨f.id⟩ :: n.faces) := by
  simp only [insertFaceN] at h
  by_cases hc : f.oneDimExtent ≤ n.width * r
  · rw [if_pos hc] at h
    exact ⟨fun _ => ((insert_both r f fuel).2 n n' p h).1,
           fun hcn => absurd hc hcn⟩
  · rw [if_neg hc] at h
    refine ⟨fun hcc => absurd hcc hc, fun _ => ?_⟩
    have h2 := Option.some_inj.1 h
    rw [Prod.mk.injEq] at h2
    obtain ⟨e1, e2⟩ := h2
    subst e1
    subst e2
    obtain ⟨-, -, -, sc, sf⟩ := storeFace_parts n f
    exact ⟨rfl, sc, sf⟩

/-- Claim C3, counterexample: inserting a single large face into a fresh
tree stores it at the root while creating no children at all, contradicting
the claim that the eight children are lazily created even when the face
stays at this level. -/
theorem store_without_children_counterexample :
    ((applyOps (emptyOctree false) [.insert 9 1 ⟨⟨0, 0, 0⟩, 1⟩]).bind
      Octree.root).map (fun rt => (rt.faces, rt.children.length)) =
      some ([⟨1⟩], 0) := by
  with_unfolding_all decide

/-- Claim C4 (amended): the spec asks for nonnegative depths with the root
at depth 0, but root growth ('makeParent') gives the new root depth one
less than the old root, so a grown root has negative depth; what every
reachable state does satisfy is depth coherence - each node's depth is the
root's depth plus the length of the path that reaches it. -/
theorem depth_increments_along_paths (t : Octree) (rt m : ONode) (p : List Nat)
    (h : Reachable t) (hr : t.root = some rt) (hp : nodeAt rt p = some m) :
    m.depth = rt.depth + p.length := by
  have hd := reachable_depthOK t h rt hr
  exact (depthOKb_nodeAt p rt m hd hp).2

/-- Claim C4, counterexample: pre-configuring a root and inserting one
out-of-bounds face grows the root once, leaving a reachable state whose
root has depth -1, refuting both nonnegativity and root depth 0. -/
theorem negative_root_depth_counterexample :
    ((applyOps (emptyOctree false)
        [.setup ⟨0, 0, 0⟩ 1, .insert 6 1 ⟨⟨1, 1, 1⟩, 1/2⟩]).bind
      Octree.root).map ONode.depth = some (-1) := by
  with_unfolding_all decide

/-- Claim C5 (amended): on setup-free traces a returning 'deleteFace' does
leave the root absent, or with a locally stored face, or with at least two
non-empty children; with a pre-configured root the tree can grow around an
empty root and the invariant fails. -/
theorem root_after_delete_shrunk (t t' : Octree) (i : Nat)
    (h : ReachableNS t) (hdel : t.deleteFace i = some t') :
    t'.root = none ∨
      ∃ rt', t'.root = some rt' ∧
        (rt'.faces ≠ [] ∨ 2 ≤ rt'.nonEmptyChildIndices.length) := by
  obtain ⟨hwf, -⟩ := reachableNS_WF t h
  exact deleteFace_shrink t t' i hwf hdel

/-- Claim C5, counterexample: setting up a root, inserting one out-of-bounds
face and deleting it again returns from 'deleteFace' with a surviving root
that stores no face and has zero non-empty children - 'shrinkRoot' never
fires because the collapse condition requires exactly one non-empty
child. -/
theorem empty_root_survives_delete_counterexample :
    (applyOps (emptyOctree false)
        [.setup ⟨0, 0, 0⟩ 1, .insert 6 1 ⟨⟨1, 1, 1⟩, 1/2⟩, .delete 1]).map
      (fun t => (t.hasRoot, t.numFaces,
        t.root.map (fun rt => (rt.faces.length, rt.nonEmptyChildIndices.length)))) =
      some (true, 0, some (0, 0)) := by
  with_unfolding_all decide

/-- Claim C6 (amended): the sphere query appends exactly the faces whose
nodes pass the loose-box test and whose triangles pass the sphere test, but
its boolean result reports non-emptiness of the whole output collection,
accumulator included - not whether any face matched during this query. -/
theorem sphere_query_output_spec (t : Octree) (rt : ONode)
    (bt : Vec3 → ℚ → Bool) (ft : WFace → Bool) (acc : List WFace)
    (hr : t.root = some rt) :
    (t.intersectsSphere bt ft acc).2 = acc ++ sphereMatches bt ft rt ∧
    ((t.intersectsSphere bt ft acc).1 = true ↔
      acc ++ sphereMatches bt ft rt ≠ []) := by
  constructor
  · simp only [Octree.intersectsSphere, hr, ONode.intersectsSphere]
    exact sphereAcc_eq bt ft rt acc
  · simp only [Octree.intersectsSphere, hr, ONode.intersectsSphere, sphereAcc_eq]
    simp

/-- Claim C6, counterexample: with a loose-box test that rejects every box,
no face matches and nothing is appended, yet the query returns true because
the caller's output collection was already non-empty. -/
theorem sphere_query_bool_counterexample :
    (applyOps (emptyOctree false) [.insert 9 1 ⟨⟨0, 0, 0⟩, 1⟩]).map
      (fun t => t.intersectsSphere (fun _ _ => false) (fun _ => true) [⟨99⟩]) =
      some (true, [⟨99⟩]) := by
  with_unfolding_all decide

/-- Claim C7: all three intersection queries on a tree whose root is absent
return false with the output accumulator unchanged (the queries are pure,
so the tree state is untouched by construction). -/
theorem rootless_queries_no_intersection {α β : Type} (t : Octree)
    (bt : Vec3 → ℚ → Bool) (ft : WFace → Bool) (acc : List WFace)
    (upd : α → WFace → α) (isI : α → Bool) (a0 : α)
    (upd2 : β → Nat × PrimTriangle → β) (isI2 : β → Bool) (b0 : β) :
    ({t with root := none}).intersectsSphere bt ft acc = (false, acc) ∧
    ({t with root := none}).intersectsRayMesh bt upd isI a0 = (false, a0) ∧
    ({t with root := none}).intersectsRayPrim bt upd2 isI2 b0 = (false, b0) :=
  ⟨rfl, rfl, rfl⟩

/-- Claim C8: along any setup-free trace of the public mutators, 'hasFace'
holds exactly for the ids inserted and not subsequently deleted (realigns
and resets are tracked by the live-id fold), and a held id's 'face' lookup
returns a stored face carrying that id. -/
theorem hasFace_iff_inserted_not_deleted (s : Bool) (ops : List OctOp)
    (t : Octree) (i : Nat) (hns : ∀ op ∈ ops, op.isSetup = false)
    (h : applyOps (emptyOctree s) ops = some t) :
    (t.hasFace i = true ↔ i ∈ liveIds ops) ∧
    (t.hasFace i = true → ∃ fc, t.face i = some fc ∧ fc.id = i) := by
  obtain ⟨e1, e2, e3⟩ := emptyOctree_WF s
  obtain ⟨w1, w2, w3⟩ := applyOps_WFS ops _ t e1 e2 hns h
  rw [e3] at w3
  simp only [List.map_nil] at w3
  constructor
  · rw [Octree.hasFace, idLookup_isSome_iff]
    exact w3.mem_iff
  · intro hf
    have hlk : (idLookup t.idMap i).isSome = true := hf
    cases hv : idLookup t.idMap i with
    | none =>
        rw [hv] at hlk
        cases hlk
    | some p =>
        cases hroot : t.root with
        | none =>
            rw [(WFb_none_iff t hroot).1 w1] at hv
            simp [idLookup] at hv
        | some rt =>
            obtain ⟨-, -, -, -, tpaths⟩ := (WFb_some_iff t rt hroot).1 w1
            have hmem := idLookup_mem t.idMap i p hv
            obtain ⟨m, hm, hfc⟩ := tpaths (i, p) hmem
            obtain ⟨fc, hfind, hid⟩ := find_by_id_some m.faces i hfc
            refine ⟨fc, ?_, hid⟩
            simp only [Octree.face, hroot, hv, hm, Option.some_bind]
            exact hfind

/-- Claim C9: insertion of a face with positive extent into a node of
positive width terminates for every threshold below 1/2 - some fuel
suffices for the descent, because child widths halve and a face whose
extent exceeds the child threshold is stored on the bounce-back call. -/
theorem insertion_descent_terminates (r : ℚ) (f : FaceToInsert) (n : ONode)
    (hr : r < 1/2) (he : 0 < f.oneDimExtent) (hw : 0 < n.width)
    (hwc : widthCoherent n = true) :
    ∃ fuel x, insertFaceN r fuel n f = some x := by
  rcases le_or_lt r 0 with h0 | h0
  · refine insert_terminates_aux r f he 0 n hwc ?_
    have h1 : n.width * r ≤ 0 := mul_nonpos_iff.2 (Or.inl ⟨hw.le, h0⟩)
    rw [pow_zero, mul_one]
    linarith
  · obtain ⟨k, hk⟩ := pow_unbounded_of_one_lt ((n.width * r) / f.oneDimExtent)
      (by norm_num : (1:ℚ) < 2)
    refine insert_terminates_aux r f he k n hwc ?_
    rw [div_lt_iff he] at hk
    rw [mul_comm (f.oneDimExtent) ((2:ℚ) ^ k)]
    exact hk

/-- Claim C10: an id that is not indexed makes 'face' return a null result,
while 'deleteFace' and 'realignFace' treat the same situation as a failed
precondition. -/
theorem face_absent_id_null (t : Octree) (i : Nat) (fuel : Nat)
    (tri : PrimTriangle) (h : t.hasFace i = false) :
    t.face i = none ∧ t.deleteFace i = none ∧
      t.realignFace fuel i tri = none := by
  have hlk : idLookup t.idMap i = none := by
    cases hv : idLookup t.idMap i with
    | none => rfl
    | some p =>
        rw [Octree.hasFace, hv] at h
        simp at h
  refine ⟨?_, ?_, ?_⟩
  · simp only [Octree.face, hlk]
    cases t.root <;> rfl
  · simp only [Octree.deleteFace, hlk]
    cases t.root <;> rfl
  · simp [Octree.realignFace, h]

theorem insert_then_delete_all_empties_witness :
    ∃ t', applyOps (emptyOctree false)
        ([.insert 9 1 ⟨⟨0, 0, 0⟩, 1⟩] ++ ([1] : List Nat).map OctOp.delete) = some t' ∧
      t'.hasRoot = false ∧ t'.numFaces = 0 := by
  have h : (applyOps (emptyOctree false)
      ([.insert 9 1 ⟨⟨0, 0, 0⟩, 1⟩] ++ ([1] : List Nat).map OctOp.delete)).isSome = true := by
    with_unfolding_all decide
  cases happ : applyOps (emptyOctree false)
      ([.insert 9 1 ⟨⟨0, 0, 0⟩, 1⟩] ++ ([1] : List Nat).map OctOp.delete) with
  | none =>
      rw [happ] at h
      cases h
  | some t' =>
      exact ⟨t', rfl, insert_then_delete_all_empties false
        [.insert 9 1 ⟨⟨0, 0, 0⟩, 1⟩] [1] t' (by decide) (by decide) happ⟩

theorem subdivided_node_keeps_nonempty_child_witness :
    ∃ t rt, applyOps (emptyOctree false)
        [.insert 9 1 ⟨⟨0, 0, 0⟩, 1⟩, .insert 9 2 ⟨⟨1/4, 1/4, 1/4⟩, 1/16⟩] = some t ∧
      t.root = some rt ∧ ∃ c ∈ rt.children, c.isEmpty = false := by
  have h : (applyOps (emptyOctree false)
      [.insert 9 1 ⟨⟨0, 0, 0⟩, 1⟩, .insert 9 2 ⟨⟨1/4, 1/4, 1/4⟩, 1/16⟩]).map
      (fun t => t.root.map (fun rt => !rt.children.isEmpty)) = some (some true) := by
    with_unfolding_all decide
  cases happ : applyOps (emptyOctree false)
      [.insert 9 1 ⟨⟨0, 0, 0⟩, 1⟩, .insert 9 2 ⟨⟨1/4, 1/4, 1/4⟩, 1/16⟩] with
  | none =>
      rw [happ] at h
      cases h
  | some t =>
      rw [happ] at h
      simp only [Option.map_some', Option.some_inj] at h
      cases hroot : t.root with
      | none =>
          rw [hroot] at h
          simp at h
      | some rt =>
          rw [hroot] at h
          simp only [Option.map_some', Option.some_inj] at h
          have hch : rt.children.isEmpty = false := by
            cases hv : rt.children.isEmpty
            · rfl
            · rw [hv] at h
              simp at h
          exact ⟨t, rt, rfl, hroot, subdivided_node_keeps_nonempty_child t rt rt []
            ⟨false, [.insert 9 1 ⟨⟨0, 0, 0⟩, 1⟩, .insert 9 2 ⟨⟨1/4, 1/4, 1/4⟩, 1/16⟩],
              by decide, happ⟩ hroot (nodeAt_nil rt) hch⟩

theorem face_descends_iff_extent_small_witness :
    ¬ ((1 : ℚ) ≤ 1 * relativeMinFaceExtent) ∧
    ∃ n' p, insertFaceN relativeMinFaceExtent 1 (ONode.mk ⟨0, 0, 0⟩ 1 0 [] [] [])
        ⟨1, ⟨⟨0, 0, 0⟩, 1⟩, false⟩ = some (n', p) ∧
      p = [] ∧ n'.children = [] ∧ n'.faces = [⟨1⟩] := by
  have h : (insertFaceN relativeMinFaceExtent 1 (ONode.mk ⟨0, 0, 0⟩ 1 0 [] [] [])
      ⟨1, ⟨⟨0, 0, 0⟩, 1⟩, false⟩).isSome = true := by
    with_unfolding_all decide
  cases hx : insertFaceN relativeMinFaceExtent 1 (ONode.mk ⟨0, 0, 0⟩ 1 0 [] [] [])
      ⟨1, ⟨⟨0, 0, 0⟩, 1⟩, false⟩ with
  | none =>
      rw [hx] at h
      cases h
  | some pr =>
      obtain ⟨hni, hcc, hff⟩ := (face_descends_iff_extent_small relativeMinFaceExtent
        ⟨1, ⟨⟨0, 0, 0⟩, 1⟩, false⟩ 0 (ONode.mk ⟨0, 0, 0⟩ 1 0 [] [] []) pr.1 pr.2
        (by simpa using hx)).2 (by with_unfolding_all decide)
      exact ⟨by with_unfolding_all decide, pr.1, pr.2, rfl, hni, hcc, hff⟩

theorem depth_increments_along_paths_witness :
    ∃ t rt m, applyOps (emptyOctree false)
        [.insert 9 1 ⟨⟨0, 0, 0⟩, 1⟩, .insert 9 2 ⟨⟨1/4, 1/4, 1/4⟩, 1/16⟩] = some t ∧
      t.root = some rt ∧ nodeAt rt [0] = some m ∧
      m.depth = rt.depth + ([0] : List Nat).length := by
  have h : (applyOps (emptyOctree false)
      [.insert 9 1 ⟨⟨0, 0, 0⟩, 1⟩, .insert 9 2 ⟨⟨1/4, 1/4, 1/4⟩, 1/16⟩]).map
      (fun t => t.root.map (fun rt => (nodeAt rt [0]).isSome)) = some (some true) := by
    with_unfolding_all decide
  cases happ : applyOps (emptyOctree false)
      [.insert 9 1 ⟨⟨0, 0, 0⟩, 1⟩, .insert 9 2 ⟨⟨1/4, 1/4, 1/4⟩, 1/16⟩] with
  | none =>
      rw [happ] at h
      cases h
  | some t =>
      rw [happ] at h
      simp only [Option.map_some', Option.some_inj] at h
      cases hroot : t.root with
      | none =>
          rw [hroot] at h
          simp at h
      | some rt =>
          rw [hroot] at h
          simp only [Option.map_some', Option.some_inj] at h
          cases hm : nodeAt rt [0] with
          | none =>
              rw [hm] at h
              simp at h
          | some m =>
              exact ⟨t, rt, m, rfl, hroot, hm,
                depth_increments_along_paths t rt m [0]
                  ⟨false, [.insert 9 1 ⟨⟨0, 0, 0⟩, 1⟩, .insert 9 2 ⟨⟨1/4, 1/4, 1/4⟩, 1/16⟩],
                    happ⟩ hroot hm⟩

theorem root_after_delete_shrunk_witness :
    ∃ t t', applyOps (emptyOctree false) [.insert 9 1 ⟨⟨0, 0, 0⟩, 1⟩] = some t ∧
      t.deleteFace 1 = some t' ∧
      (t'.root = none ∨ ∃ rt', t'.root = some rt' ∧
        (rt'.faces ≠ [] ∨ 2 ≤ rt'.nonEmptyChildIndices.length)) := by
  have h : (applyOps (emptyOctree false) [.insert 9 1 ⟨⟨0, 0, 0⟩, 1⟩]).map
      (fun t => (t.deleteFace 1).isSome) = some true := by
    with_unfolding_all decide
  cases happ : applyOps (emptyOctree false) [.insert 9 1 ⟨⟨0, 0, 0⟩, 1⟩] with
  | none =>
      rw [happ] at h
      cases h
  | some t =>
      rw [happ] at h
      simp only [Option.map_some', Option.some_inj] at h
      cases hdel : t.deleteFace 1 with
      | none =>
          rw [hdel] at h
          cases h
      | some t' =>
          exact ⟨t, t', rfl, hdel, root_after_delete_shrunk t t' 1
            ⟨false, [.insert 9 1 ⟨⟨0, 0, 0⟩, 1⟩], by decide, happ⟩ hdel⟩

theorem sphere_query_output_spec_witness :
    (Octree.intersectsSphere
      { root := some (ONode.mk ⟨0, 0, 0⟩ 1 0 [⟨1⟩] [] []), rootPosition := ⟨0, 0, 0⟩,
        rootWidth := 1, rootWasSetup := false, idMap := [(1, [])],
        savePrimitives := false }
      (fun _ _ => true) (fun _ => true) []).2 =
      [] ++ sphereMatches (fun _ _ => true) (fun _ => true)
        (ONode.mk ⟨0, 0, 0⟩ 1 0 [⟨1⟩] [] []) :=
  (sphere_query_output_spec _ _ _ _ _ rfl).1

theorem hasFace_iff_inserted_not_deleted_witness :
    ∃ t, applyOps (emptyOctree false) [.insert 9 1 ⟨⟨0, 0, 0⟩, 1⟩] = some t ∧
      t.hasFace 1 = true ∧ 1 ∈ liveIds [.insert 9 1 ⟨⟨0, 0, 0⟩, 1⟩] ∧
      ∃ fc, t.face 1 = some fc ∧ fc.id = 1 := by
  have h : (applyOps (emptyOctree false) [.insert 9 1 ⟨⟨0, 0, 0⟩, 1⟩]).map
      (fun t => t.hasFace 1) = some true := by
    with_unfolding_all decide
  cases happ : applyOps (emptyOctree false) [.insert 9 1 ⟨⟨0, 0, 0⟩, 1⟩] with
  | none =>
      rw [happ] at h
      cases h
  | some t =>
      rw [happ] at h
      simp only [Option.map_some', Option.some_inj] at h
      have hx := hasFace_iff_inserted_not_deleted false
        [.insert 9 1 ⟨⟨0, 0, 0⟩, 1⟩] t 1 (by decide) happ
      exact ⟨t, rfl, h, hx.1.1 h, hx.2 h⟩

theorem insertion_descent_terminates_witness :
    (49/100 : ℚ) < 1/2 ∧ (0 : ℚ) < 1/100 ∧
    widthCoherent (ONode.mk ⟨0, 0, 0⟩ 1 0 [] [] []) = true ∧
    ∃ fuel x, insertFaceN (49/100) fuel (ONode.mk ⟨0, 0, 0⟩ 1 0 [] [] [])
      ⟨1, ⟨⟨0, 0, 0⟩, 1/100⟩, false⟩ = some x :=
  ⟨by with_unfolding_all decide, by with_unfolding_all decide, rfl,
    insertion_descent_terminates (49/100) ⟨1, ⟨⟨0, 0, 0⟩, 1/100⟩, false⟩
      (ONode.mk ⟨0, 0, 0⟩ 1 0 [] [] []) (by with_unfolding_all decide)
      (by with_unfolding_all decide) (by with_unfolding_all decide) rfl⟩

theorem face_absent_id_null_witness :
    (emptyOctree false).hasFace 5 = false ∧
    (emptyOctree false).face 5 = none ∧
    (emptyOctree false).deleteFace 5 = none ∧
    (emptyOctree false).realignFace 3 5 ⟨⟨0, 0, 0⟩, 1⟩ = none := by
  have hx := face_absent_id_null (emptyOctree false) 5 3 ⟨⟨0, 0, 0⟩, 1⟩ rfl
  exact ⟨rfl, hx.1, hx.2.1, hx.2.2⟩
